import Mathlib

/-!
Shallow embedding of the core of the mdfusion repository
(src/mdfusion/mdfusion.py, the package module exercised by the tests,
and the legacy standalone script src/mdfusion.py).

Strings are modelled as `List Char` (ASCII paths and document text);
filesystem paths are modelled as lists of path segments.  Pure text
processing (natural-key sorting, image-link rewriting, merging) is
translated directly from the Python source; fallible reads are modelled
with `Except`.
-/

namespace MdFusion

/-! ### Natural sort key: `natural_key` from mdfusion.py

Python: `re.split(r"(\d+)", s)` splits `s` into alternating non-digit and
digit runs (keeping the captured digit runs), always beginning and ending
with a possibly-empty non-digit run.  Each token is then mapped with
`int(tok) if tok.isdigit() else tok.lower()`. -/

/-- The chunk list produced by `re.split(r"(\d+)", s)`: a possibly empty
non-digit run, then alternating non-empty digit runs and possibly empty
non-digit runs, ending with a possibly empty non-digit run.  A digit
character extends the leading digit run (which follows an empty leading
non-digit chunk); a non-digit character extends the leading non-digit
chunk. -/
def splitND : List Char → List (List Char)
  | [] => [[]]
  | c :: t =>
    if c.isDigit then
      match splitND t with
      | [] :: d :: rest => [] :: (c :: d) :: rest
      | chunks => [] :: [c] :: chunks
    else
      match splitND t with
      | nd :: rest => (c :: nd) :: rest
      | [] => [[c]]

/-- Value of a decimal digit string, as `int(tok)` computes it. -/
def digitsToNat (l : List Char) : Nat :=
  l.foldl (fun a c => a * 10 + (c.toNat - 48)) 0

/-- One entry of a natural sort key: Python `int` or lowercased `str`. -/
inductive NKTok where
  | num : Nat → NKTok
  | str : List Char → NKTok
deriving DecidableEq, Repr

/-- One token of the key: `int(tok) if tok.isdigit() else tok.lower()`.
`tok.isdigit()` holds iff the token is non-empty and all digits. -/
def tokOf (tok : List Char) : NKTok :=
  if tok ≠ [] ∧ tok.all Char.isDigit then .num (digitsToNat tok)
  else .str (tok.map Char.toLower)

/-- `natural_key(s)` from mdfusion.py:
`[int(tok) if tok.isdigit() else tok.lower() for tok in re.split(r"(\d+)", s)]`. -/
def natural_key (s : List Char) : List NKTok :=
  (splitND s).map tokOf

/-! ### Python comparison of natural keys

Python compares lists lexicographically; comparing an `int` entry with a
`str` entry raises `TypeError`, modelled by `none`. -/

/-- Three-way comparison on naturals. -/
def natCmp (n m : Nat) : Ordering :=
  if n < m then .lt else if m < n then .gt else .eq

/-- Python string comparison: lexicographic over code points. -/
def strCmp : List Char → List Char → Ordering
  | [], [] => .eq
  | [], _ :: _ => .lt
  | _ :: _, [] => .gt
  | a :: as, b :: bs =>
    match natCmp a.toNat b.toNat with
    | .eq => strCmp as bs
    | o => o

/-- Comparison of two key entries; `none` models Python's `TypeError`
when an `int` meets a `str`. -/
def tokCmp : NKTok → NKTok → Option Ordering
  | .num n, .num m => some (natCmp n m)
  | .str a, .str b => some (strCmp a b)
  | _, _ => none

/-- Python list comparison of two keys: first non-equal entries decide;
a strict prefix is smaller; mixed-type entry comparison fails (`none`). -/
def keyCmp : List NKTok → List NKTok → Option Ordering
  | [], [] => some .eq
  | [], _ :: _ => some .lt
  | _ :: _, [] => some .gt
  | a :: as, b :: bs =>
    match tokCmp a b with
    | none => none
    | some .eq => keyCmp as bs
    | some o => some o

/-- The ordering `md_paths.sort(key=natural_key)` sorts by: not-greater
under the natural-key comparison. -/
def pathLe (p q : List Char) : Prop :=
  keyCmp (natural_key p) (natural_key q) ≠ some Ordering.gt

instance : DecidableRel pathLe := fun p q => by
  unfold pathLe; infer_instance

/-- Does a relative path match the glob `*.md` used by `root_dir.rglob`? -/
def isMdPath (p : List Char) : Bool :=
  List.isSuffixOf (['.', 'm', 'd']) p

/-- `find_markdown_files(root_dir)` from mdfusion.py: the `rglob("*.md")`
enumeration (modelled as filtering the root-relative listing `fs` of all
files under the root) sorted stably by `natural_key` of the relative
path. -/
def find_markdown_files (fs : List (List Char)) : List (List Char) :=
  List.insertionSort pathLe (fs.filter isMdPath)

/-! ### Well-formedness of natural keys: strict alternation -/

/-- Alternation of key entries: when the flag is `true` the next entry must
be a string entry, when `false` a number entry. -/
def altKey : Bool → List NKTok → Prop
  | _, [] => True
  | true, .str _ :: t => altKey false t
  | true, .num _ :: t => False
  | false, .num _ :: t => altKey true t
  | false, .str _ :: t => False

/-! #### Computation rules for `splitND` -/

theorem splitND_nil : splitND [] = [[]] := rfl

theorem splitND_cons_digit_merge {c : Char} {t : List Char} {d : List Char}
    {rest : List (List Char)} (hc : c.isDigit = true)
    (h : splitND t = [] :: d :: rest) :
    splitND (c :: t) = [] :: (c :: d) :: rest := by
  simp only [splitND]
  rw [if_pos hc, h]

theorem splitND_cons_digit_single {c : Char} {t : List Char}
    (hc : c.isDigit = true) (h : splitND t = [[]]) :
    splitND (c :: t) = [[], [c], []] := by
  simp only [splitND]
  rw [if_pos hc, h]

theorem splitND_cons_digit_other {c : Char} {t : List Char} {x : Char}
    {xs : List Char} {rest : List (List Char)} (hc : c.isDigit = true)
    (h : splitND t = (x :: xs) :: rest) :
    splitND (c :: t) = [] :: [c] :: ((x :: xs) :: rest) := by
  simp only [splitND]
  rw [if_pos hc, h]

theorem splitND_cons_nondigit {c : Char} {t : List Char} {nd : List Char}
    {rest : List (List Char)} (hc : c.isDigit = false)
    (h : splitND t = nd :: rest) :
    splitND (c :: t) = (c :: nd) :: rest := by
  simp only [splitND]
  rw [if_neg (by simp [hc]), h]

/-- A non-empty run of non-digit characters is never classified as a
number token. -/
theorem nondigit_run_not_num (s : List Char)
    (hs : ∀ c ∈ s, c.isDigit = false) :
    ¬(s ≠ [] ∧ s.all Char.isDigit = true) := by
  rintro ⟨hne, hall⟩
  cases s with
  | nil => exact hne rfl
  | cons a t =>
    have h1 := List.all_eq_true.mp hall a (by simp)
    have h2 := hs a (by simp)
    rw [h1] at h2
    exact absurd h2 (by simp)

theorem tokOf_nondigit (s : List Char) (hs : ∀ c ∈ s, c.isDigit = false) :
    tokOf s = .str (s.map Char.toLower) := by
  unfold tokOf
  rw [if_neg (nondigit_run_not_num s hs)]

theorem tokOf_digits (d : List Char) (hd : d ≠ [])
    (hdd : ∀ c ∈ d, c.isDigit = true) :
    tokOf d = .num (digitsToNat d) := by
  unfold tokOf
  rw [if_pos ⟨hd, List.all_eq_true.mpr hdd⟩]

/-- Shape invariant of `splitND` output: a non-digit chunk, then
alternating non-empty digit runs and non-digit chunks, ending with a
non-digit chunk. -/
inductive ChunksOK : List (List Char) → Prop
  | last (nd : List Char) : (∀ c ∈ nd, c.isDigit = false) → ChunksOK [nd]
  | step (nd d : List Char) (rest : List (List Char)) :
      (∀ c ∈ nd, c.isDigit = false) → d ≠ [] →
      (∀ c ∈ d, c.isDigit = true) → ChunksOK rest →
      ChunksOK (nd :: d :: rest)

theorem chunksOK_cons_inv {first : List Char} {rest : List (List Char)}
    (h : ChunksOK (first :: rest)) :
    (rest = [] ∧ ∀ c ∈ first, c.isDigit = false) ∨
    (∃ d rest2, rest = d :: rest2 ∧ (∀ c ∈ first, c.isDigit = false) ∧
      d ≠ [] ∧ (∀ c ∈ d, c.isDigit = true) ∧ ChunksOK rest2) :=
  match h with
  | .last _ hnd => Or.inl ⟨rfl, hnd⟩
  | .step _ d rest2 hnd hdne hdd hrest =>
      Or.inr ⟨d, rest2, rfl, hnd, hdne, hdd, hrest⟩

theorem mem_singleton_digit {c a : Char} (hc : c.isDigit = true)
    (ha : a ∈ [c]) : a.isDigit = true := by
  rw [List.mem_singleton] at ha
  subst ha
  exact hc

theorem mem_cons_nondigit {c : Char} {nd : List Char}
    (hc : c.isDigit = false) (hnd : ∀ x ∈ nd, x.isDigit = false) :
    ∀ a ∈ c :: nd, a.isDigit = false := by
  intro a ha
  rcases List.mem_cons.mp ha with h1 | h2
  · subst h1; exact hc
  · exact hnd a h2

theorem splitND_ok : ∀ s : List Char, ChunksOK (splitND s) := by
  intro s
  induction s with
  | nil => exact .last [] (by simp)
  | cons c t ih =>
    by_cases hc : c.isDigit = true
    · rcases hsp : splitND t with _ | ⟨first, rest⟩
      · rw [hsp] at ih; cases ih
      · rw [hsp] at ih
        rcases chunksOK_cons_inv ih with ⟨hre, hnd⟩ |
          ⟨d, rest2, hre, hnd, hdne, hdd, hrest⟩
        · subst hre
          cases first with
          | nil =>
            rw [splitND_cons_digit_single hc hsp]
            exact .step [] [c] [[]] (by simp) (by simp)
              (fun a ha => mem_singleton_digit hc ha) (.last [] (by simp))
          | cons x xs =>
            rw [splitND_cons_digit_other hc hsp]
            exact .step [] [c] [x :: xs] (by simp) (by simp)
              (fun a ha => mem_singleton_digit hc ha) (.last (x :: xs) hnd)
        · subst hre
          cases first with
          | nil =>
            rw [splitND_cons_digit_merge hc hsp]
            refine .step [] (c :: d) rest2 (by simp) (by simp) ?_ hrest
            intro a ha
            rcases List.mem_cons.mp ha with h1 | h2
            · subst h1; exact hc
            · exact hdd a h2
          | cons x xs =>
            rw [splitND_cons_digit_other hc hsp]
            exact .step [] [c] ((x :: xs) :: d :: rest2) (by simp) (by simp)
              (fun a ha => mem_singleton_digit hc ha)
              (.step (x :: xs) d rest2 hnd hdne hdd hrest)
    · have hc2 : c.isDigit = false := by simpa using hc
      rcases hsp : splitND t with _ | ⟨first, rest⟩
      · rw [hsp] at ih; cases ih
      · rw [hsp] at ih
        rw [splitND_cons_nondigit hc2 hsp]
        rcases chunksOK_cons_inv ih with ⟨hre, hnd⟩ |
          ⟨d, rest2, hre, hnd, hdne, hdd, hrest⟩
        · subst hre
          exact .last (c :: first) (mem_cons_nondigit hc2 hnd)
        · subst hre
          exact .step (c :: first) d rest2 (mem_cons_nondigit hc2 hnd)
            hdne hdd hrest

theorem chunksOK_alt : ∀ {cs : List (List Char)}, ChunksOK cs →
    altKey true (cs.map tokOf) := by
  intro cs h
  induction h with
  | last nd hnd =>
    rw [List.map_cons, List.map_nil, tokOf_nondigit nd hnd]
    exact trivial
  | step nd d rest hnd hdne hdd hrest ih =>
    rw [List.map_cons, List.map_cons, tokOf_nondigit nd hnd,
      tokOf_digits d hdne hdd]
    exact ih

theorem natural_key_alt (s : List Char) : altKey true (natural_key s) :=
  chunksOK_alt (splitND_ok s)

/-! ### Properties of the key comparison -/

theorem natCmp_eq_iff {n m : Nat} : natCmp n m = .eq ↔ n = m := by
  unfold natCmp; split_ifs <;> simp <;> omega

theorem natCmp_lt_iff {n m : Nat} : natCmp n m = .lt ↔ n < m := by
  unfold natCmp; split_ifs <;> simp <;> omega

theorem natCmp_gt_iff {n m : Nat} : natCmp n m = .gt ↔ m < n := by
  unfold natCmp; split_ifs <;> simp <;> omega

theorem char_toNat_inj {x y : Char} (h : x.toNat = y.toNat) : x = y :=
  Char.eq_of_val_eq (UInt32.eq_of_val_eq (Fin.eq_of_val_eq h))

theorem strCmp_cons (x y : Char) (xs ys : List Char) :
    strCmp (x :: xs) (y :: ys) =
      (match natCmp x.toNat y.toNat with
        | .eq => strCmp xs ys
        | o => o) := rfl

theorem strCmp_cons_lt_iff {x y : Char} {xs ys : List Char} :
    strCmp (x :: xs) (y :: ys) = .lt ↔
      x.toNat < y.toNat ∨ (x = y ∧ strCmp xs ys = .lt) := by
  rw [strCmp_cons]
  rcases hc : natCmp x.toNat y.toNat with _ | _ | _
  · have h1 := natCmp_lt_iff.mp hc
    simp [hc, h1]
  · have hxy : x = y := char_toNat_inj (natCmp_eq_iff.mp hc)
    subst hxy
    have h2 : ¬x.toNat < x.toNat := by omega
    simp [hc, h2]
  · have h1 := natCmp_gt_iff.mp hc
    have h2 : ¬x.toNat < y.toNat := by omega
    have h3 : x ≠ y := fun he => by subst he; omega
    simp [hc, h2, h3]

theorem strCmp_eq_iff : ∀ {a b : List Char}, strCmp a b = .eq ↔ a = b := by
  intro a
  induction a with
  | nil => intro b; cases b <;> simp [strCmp]
  | cons x xs ih =>
    intro b
    cases b with
    | nil => simp [strCmp]
    | cons y ys =>
      rw [strCmp_cons]
      rcases hc : natCmp x.toNat y.toNat with _ | _ | _
      · have h1 := natCmp_lt_iff.mp hc
        have hne : x ≠ y := fun he => by subst he; omega
        simp [hc, hne]
      · have hxy : x = y := char_toNat_inj (natCmp_eq_iff.mp hc)
        subst hxy
        simp [hc, ih]
      · have h1 := natCmp_gt_iff.mp hc
        have hne : x ≠ y := fun he => by subst he; omega
        simp [hc, hne]

theorem strCmp_lt_trans : ∀ {a b c : List Char},
    strCmp a b = .lt → strCmp b c = .lt → strCmp a c = .lt := by
  intro a
  induction a with
  | nil =>
    intro b c hab hbc
    cases b with
    | nil => simp [strCmp] at hab
    | cons y ys =>
      cases c with
      | nil => simp [strCmp] at hbc
      | cons z zs => simp [strCmp]
  | cons x xs ih =>
    intro b c hab hbc
    cases b with
    | nil => simp [strCmp] at hab
    | cons y ys =>
      cases c with
      | nil => simp [strCmp] at hbc
      | cons z zs =>
        rw [strCmp_cons_lt_iff] at hab hbc ⊢
        rcases hab with h1 | ⟨h1, h1s⟩
        · rcases hbc with h2 | ⟨h2, h2s⟩
          · exact Or.inl (lt_trans h1 h2)
          · subst h2; exact Or.inl h1
        · subst h1
          rcases hbc with h2 | ⟨h2, h2s⟩
          · exact Or.inl h2
          · subst h2; exact Or.inr ⟨rfl, ih h1s h2s⟩

theorem natCmp_swap (n m : Nat) : natCmp m n = (natCmp n m).swap := by
  rcases Nat.lt_trichotomy n m with h | h | h
  · have h2 : ¬m < n := by omega
    simp [natCmp, h, h2, Ordering.swap]
  · subst h; simp [natCmp, Ordering.swap]
  · have h2 : ¬n < m := by omega
    simp [natCmp, h, h2, Ordering.swap]

theorem strCmp_swap : ∀ (a b : List Char), strCmp b a = (strCmp a b).swap := by
  intro a
  induction a with
  | nil => intro b; cases b <;> simp [strCmp, Ordering.swap]
  | cons x xs ih =>
    intro b
    cases b with
    | nil => simp [strCmp, Ordering.swap]
    | cons y ys =>
      rw [strCmp_cons, strCmp_cons, natCmp_swap x.toNat y.toNat]
      rcases hc : natCmp x.toNat y.toNat with _ | _ | _ <;>
        simp [hc, Ordering.swap, ih ys]

theorem tokCmp_swap : ∀ (a b : NKTok),
    tokCmp b a = (tokCmp a b).map Ordering.swap := by
  intro a b
  cases a with
  | num n =>
    cases b with
    | num m =>
      show some (natCmp m n) = (some (natCmp n m)).map Ordering.swap
      rw [natCmp_swap n m]; rfl
    | str t => rfl
  | str s =>
    cases b with
    | num m => rfl
    | str t =>
      show some (strCmp t s) = (some (strCmp s t)).map Ordering.swap
      rw [strCmp_swap s t]; rfl

theorem tokCmp_eq_implies : ∀ {a b : NKTok}, tokCmp a b = some .eq → a = b := by
  intro a b h
  cases a <;> cases b <;> simp [tokCmp] at h
  · rw [natCmp_eq_iff.mp h]
  · rw [strCmp_eq_iff.mp h]

theorem tokCmp_lt_trans : ∀ {a b c : NKTok},
    tokCmp a b = some .lt → tokCmp b c = some .lt → tokCmp a c = some .lt := by
  intro a b c h1 h2
  cases a <;> cases b <;> simp [tokCmp] at h1 <;>
    cases c <;> simp [tokCmp] at h2 ⊢
  · have v1 := natCmp_lt_iff.mp h1
    have v2 := natCmp_lt_iff.mp h2
    exact natCmp_lt_iff.mpr (by omega)
  · exact strCmp_lt_trans h1 h2

theorem keyCmp_cons (a b : NKTok) (as bs : List NKTok) :
    keyCmp (a :: as) (b :: bs) =
      (match tokCmp a b with
        | none => none
        | some .eq => keyCmp as bs
        | some o => some o) := rfl

theorem keyCmp_swap : ∀ (k1 k2 : List NKTok),
    keyCmp k2 k1 = (keyCmp k1 k2).map Ordering.swap := by
  intro k1
  induction k1 with
  | nil => intro k2; cases k2 <;> simp [keyCmp, Ordering.swap]
  | cons a as ih =>
    intro k2
    cases k2 with
    | nil => simp [keyCmp, Ordering.swap]
    | cons b bs =>
      rw [keyCmp_cons, keyCmp_cons, tokCmp_swap a b]
      rcases ht : tokCmp a b with _ | ⟨_ | _ | _⟩ <;>
        simp [ht, Ordering.swap, ih bs]

/-- Comparing the natural keys of any two strings never reaches Python's
`TypeError` case: the comparison always returns a result. -/
theorem keyCmp_some : ∀ (k1 : List NKTok) (b : Bool) (k2 : List NKTok),
    altKey b k1 → altKey b k2 → (keyCmp k1 k2).isSome = true := by
  intro k1
  induction k1 with
  | nil => intro b k2 _ _; cases k2 <;> simp [keyCmp]
  | cons a as ih =>
    intro b k2 h1 h2
    cases k2 with
    | nil => simp [keyCmp]
    | cons c cs =>
      cases b
      · cases a with
        | num n =>
          cases c with
          | num m =>
            rw [keyCmp_cons]
            simp only [tokCmp]
            rcases ho : natCmp n m with _ | _ | _ <;> simp
            exact ih true cs h1 h2
          | str s => exact h2.elim
        | str s => exact h1.elim
      · cases a with
        | str s =>
          cases c with
          | str t =>
            rw [keyCmp_cons]
            simp only [tokCmp]
            rcases ho : strCmp s t with _ | _ | _ <;> simp
            exact ih false cs h1 h2
          | num m => exact h2.elim
        | num n => exact h1.elim

/-- "Less than or equal" outcome of a Python comparison. -/
def isLeO (o : Option Ordering) : Prop := o = some .lt ∨ o = some .eq

/-- Destructuring of a not-greater outcome on non-empty keys. -/
theorem keyCmp_cons_isLeO {a b : NKTok} {as bs : List NKTok} :
    isLeO (keyCmp (a :: as) (b :: bs)) ↔
      (tokCmp a b = some .lt ∨
        (tokCmp a b = some .eq ∧ isLeO (keyCmp as bs))) := by
  rw [keyCmp_cons]
  rcases h : tokCmp a b with _ | ⟨_ | _ | _⟩ <;>
    simp [h, isLeO]

theorem keyLe_trans : ∀ (k1 k2 k3 : List NKTok),
    isLeO (keyCmp k1 k2) → isLeO (keyCmp k2 k3) → isLeO (keyCmp k1 k3) := by
  intro k1
  induction k1 with
  | nil =>
    intro k2 k3 _ _
    cases k3 <;> simp [keyCmp, isLeO]
  | cons a as ih =>
    intro k2 k3 h12 h23
    cases k2 with
    | nil =>
      rcases h12 with h | h <;> simp [keyCmp] at h
    | cons c cs =>
      cases k3 with
      | nil =>
        rcases h23 with h | h <;> simp [keyCmp] at h
      | cons d ds =>
        rw [keyCmp_cons_isLeO] at h12 h23 ⊢
        rcases h12 with hac | ⟨hac, hrest12⟩
        · rcases h23 with hcd | ⟨hcd, _⟩
          · exact Or.inl (tokCmp_lt_trans hac hcd)
          · have hc : c = d := tokCmp_eq_implies hcd
            subst hc
            exact Or.inl hac
        · have hc : a = c := tokCmp_eq_implies hac
          subst hc
          rcases h23 with had | ⟨had, hrest23⟩
          · exact Or.inl had
          · exact Or.inr ⟨had, ih cs ds hrest12 hrest23⟩

/-- `pathLe` restated through `isLeO`, given the comparison succeeds. -/
theorem pathLe_iff_isLeO {p q : List Char}
    (h : (keyCmp (natural_key p) (natural_key q)).isSome = true) :
    pathLe p q ↔ isLeO (keyCmp (natural_key p) (natural_key q)) := by
  unfold pathLe isLeO
  rcases ho : keyCmp (natural_key p) (natural_key q) with _ | ⟨_ | _ | _⟩ <;>
    simp_all

theorem pathLe_total (p q : List Char) : pathLe p q ∨ pathLe q p := by
  have hs := keyCmp_some (natural_key p) true (natural_key q)
    (natural_key_alt p) (natural_key_alt q)
  unfold pathLe
  rcases ho : keyCmp (natural_key p) (natural_key q) with _ | ⟨_ | _ | _⟩
  · rw [ho] at hs; simp at hs
  · left; simp [ho]
  · left; simp [ho]
  · right
    rw [keyCmp_swap, ho]
    simp [Ordering.swap]

theorem pathLe_trans (p q r : List Char) :
    pathLe p q → pathLe q r → pathLe p r := by
  intro h1 h2
  have s12 := keyCmp_some (natural_key p) true (natural_key q)
    (natural_key_alt p) (natural_key_alt q)
  have s23 := keyCmp_some (natural_key q) true (natural_key r)
    (natural_key_alt q) (natural_key_alt r)
  have s13 := keyCmp_some (natural_key p) true (natural_key r)
    (natural_key_alt p) (natural_key_alt r)
  rw [pathLe_iff_isLeO s12] at h1
  rw [pathLe_iff_isLeO s23] at h2
  rw [pathLe_iff_isLeO s13]
  exact keyLe_trans _ _ _ h1 h2

/-! ### Natural keys of runs: digit runs compare numerically -/

theorem splitND_digits (d : List Char) (hd : d ≠ [])
    (hdd : ∀ c ∈ d, c.isDigit = true) : splitND d = [[], d, []] := by
  induction d with
  | nil => exact absurd rfl hd
  | cons e es ih =>
    have he : e.isDigit = true := hdd e (by simp)
    cases es with
    | nil => exact splitND_cons_digit_single he splitND_nil
    | cons f fs =>
      have hes := ih (by simp) (fun c hc2 => hdd c (by simp [hc2]))
      exact splitND_cons_digit_merge he hes

theorem splitND_all_nondigit (s : List Char)
    (hs : ∀ c ∈ s, c.isDigit = false) : splitND s = [s] := by
  induction s with
  | nil => rfl
  | cons c t ih =>
    have hc : c.isDigit = false := hs c (by simp)
    have ht := ih (fun a ha => hs a (by simp [ha]))
    exact splitND_cons_nondigit hc ht

theorem splitND_nondigit_append (pre d : List Char)
    (hpre : ∀ c ∈ pre, c.isDigit = false) (hd : d ≠ [])
    (hdd : ∀ c ∈ d, c.isDigit = true) :
    splitND (pre ++ d) = [pre, d, []] := by
  induction pre with
  | nil =>
    rw [List.nil_append]
    exact splitND_digits d hd hdd
  | cons a t ih =>
    have ha : a.isDigit = false := hpre a (by simp)
    have ht := ih (fun c hc2 => hpre c (by simp [hc2]))
    rw [List.cons_append]
    exact splitND_cons_nondigit ha ht

theorem natural_key_nondigit_append_digits (pre d : List Char)
    (hpre : ∀ c ∈ pre, c.isDigit = false) (hd : d ≠ [])
    (hdd : ∀ c ∈ d, c.isDigit = true) :
    natural_key (pre ++ d) =
      [.str (pre.map Char.toLower), .num (digitsToNat d), .str []] := by
  unfold natural_key
  rw [splitND_nondigit_append pre d hpre hd hdd]
  simp only [List.map_cons, List.map_nil]
  rw [tokOf_nondigit pre hpre, tokOf_digits d hd hdd,
    tokOf_nondigit [] (by simp)]
  rfl

theorem natural_key_nondigit (s : List Char)
    (hs : ∀ c ∈ s, c.isDigit = false) :
    natural_key s = [.str (s.map Char.toLower)] := by
  unfold natural_key
  rw [splitND_all_nondigit s hs]
  simp only [List.map_cons, List.map_nil]
  rw [tokOf_nondigit s hs]

/-- When the non-digit prefixes agree, the natural-key order of
`pre ++ digits` is decided by the numeric value of the digit run. -/
theorem keyCmp_digit_run (pre d1 d2 : List Char)
    (hpre : ∀ c ∈ pre, c.isDigit = false) (h1 : d1 ≠ []) (h2 : d2 ≠ [])
    (hd1 : ∀ c ∈ d1, c.isDigit = true) (hd2 : ∀ c ∈ d2, c.isDigit = true) :
    keyCmp (natural_key (pre ++ d1)) (natural_key (pre ++ d2)) = some .lt
      ↔ digitsToNat d1 < digitsToNat d2 := by
  rw [natural_key_nondigit_append_digits pre d1 hpre h1 hd1,
    natural_key_nondigit_append_digits pre d2 hpre h2 hd2]
  rw [keyCmp_cons]
  have hstr : strCmp (pre.map Char.toLower) (pre.map Char.toLower) = .eq :=
    strCmp_eq_iff.mpr rfl
  simp only [tokCmp, hstr]
  rw [keyCmp_cons]
  simp only [tokCmp]
  rcases hv : natCmp (digitsToNat d1) (digitsToNat d2) with _ | _ | _
  · simp only [hv]
    simp [natCmp_lt_iff.mp hv]
  · have := natCmp_eq_iff.mp hv
    simp only [hv]
    rw [keyCmp_cons]
    simp only [tokCmp, strCmp]
    rw [keyCmp]
    constructor
    · intro hh; exact absurd hh (by simp)
    · intro hh; omega
  · have := natCmp_gt_iff.mp hv
    simp only [hv]
    constructor
    · intro hh; exact absurd hh (by simp)
    · intro hh; omega

/-- Pure non-digit strings compare as equal keys exactly when their
lowercasings agree: the non-digit runs compare case-insensitively. -/
theorem keyCmp_nondigit_ci (s1 s2 : List Char)
    (h1 : ∀ c ∈ s1, c.isDigit = false) (h2 : ∀ c ∈ s2, c.isDigit = false) :
    keyCmp (natural_key s1) (natural_key s2) = some .eq
      ↔ s1.map Char.toLower = s2.map Char.toLower := by
  rw [natural_key_nondigit s1 h1, natural_key_nondigit s2 h2, keyCmp_cons]
  simp only [tokCmp]
  rcases hc : strCmp (s1.map Char.toLower) (s2.map Char.toLower) with _ | _ | _
  · simp only [hc]
    constructor
    · intro hh; exact absurd hh (by simp)
    · intro hh
      rw [strCmp_eq_iff.mpr hh] at hc
      exact absurd hc (by simp)
  · simp only [hc]
    rw [keyCmp]
    simp [strCmp_eq_iff.mp hc]
  · simp only [hc]
    constructor
    · intro hh; exact absurd hh (by simp)
    · intro hh
      rw [strCmp_eq_iff.mpr hh] at hc
      exact absurd hc (by simp)

/-! ### Alternation as index parity -/

theorem altKey_get : ∀ (k : List NKTok) (b : Bool) (i : Nat)
    (h : i < k.length), altKey b k →
    (((i % 2 = 0) ↔ b = true) → ∃ cs, k.get ⟨i, h⟩ = NKTok.str cs) ∧
    (((i % 2 = 1) ↔ b = true) → ∃ n, k.get ⟨i, h⟩ = NKTok.num n) := by
  intro k
  induction k with
  | nil => intro b i h _; simp at h
  | cons a t ih =>
    intro b i h halt
    cases i with
    | zero =>
      cases b
      · cases a with
        | num n =>
          refine ⟨fun hiff => ?_, fun _ => ⟨n, rfl⟩⟩
          have := hiff.mp (by omega)
          exact absurd this (by simp)
        | str s => exact halt.elim
      · cases a with
        | str s =>
          refine ⟨fun _ => ⟨s, rfl⟩, fun hiff => ?_⟩
          have := hiff.mpr rfl
          omega
        | num n => exact halt.elim
    | succ j =>
      have h2 : j < t.length := by simpa using h
      cases b
      · cases a with
        | num n =>
          have htail : altKey true t := halt
          have ihj := ih true j h2 htail
          constructor
          · intro hiff
            refine ihj.1 ⟨fun _ => rfl, fun _ => ?_⟩
            by_contra hj
            have hj1 : (j + 1) % 2 = 0 := by omega
            exact absurd (hiff.mp hj1) (by simp)
          · intro hiff
            refine ihj.2 ⟨fun _ => rfl, fun _ => ?_⟩
            by_contra hj
            have hj1 : (j + 1) % 2 = 1 := by omega
            exact absurd (hiff.mp hj1) (by simp)
        | str s => exact halt.elim
      · cases a with
        | str s =>
          have htail : altKey false t := halt
          have ihj := ih false j h2 htail
          constructor
          · intro hiff
            have hj1 : (j + 1) % 2 = 0 := hiff.mpr rfl
            refine ihj.1 ⟨fun hj => absurd hj (by omega),
              fun hft => absurd hft (by simp)⟩
          · intro hiff
            have hj1 : (j + 1) % 2 = 1 := hiff.mpr rfl
            refine ihj.2 ⟨fun hj => absurd hj (by omega),
              fun hft => absurd hft (by simp)⟩
        | num n => exact halt.elim

/-! ### Claim theorems about discovery and ordering -/

/-- C1: Discovery returns every matching document under the root directory
sorted by the natural key of its root-relative path: the result is a
permutation of the matching files, sorted under the natural-key order;
when two paths share a digit-free stem and end in digit runs, the numeric
value of the digit run (not lexical string order) decides the order; and
digit-free paths compare equal exactly when their lowercasings agree
(case-insensitive text comparison). -/
theorem C1_discovery_natural_order :
    (∀ fs : List (List Char),
      (find_markdown_files fs).Perm (fs.filter isMdPath) ∧
        List.Sorted pathLe (find_markdown_files fs))
    ∧ (∀ pre d1 d2 : List Char, (∀ c ∈ pre, c.isDigit = false) →
        d1 ≠ [] → d2 ≠ [] → (∀ c ∈ d1, c.isDigit = true) →
        (∀ c ∈ d2, c.isDigit = true) →
        (keyCmp (natural_key (pre ++ d1)) (natural_key (pre ++ d2))
            = some .lt
          ↔ digitsToNat d1 < digitsToNat d2))
    ∧ (∀ s1 s2 : List Char, (∀ c ∈ s1, c.isDigit = false) →
        (∀ c ∈ s2, c.isDigit = false) →
        (keyCmp (natural_key s1) (natural_key s2) = some .eq
          ↔ s1.map Char.toLower = s2.map Char.toLower)) := by
  refine ⟨fun fs => ⟨List.perm_insertionSort pathLe _, ?_⟩,
    keyCmp_digit_run, keyCmp_nondigit_ci⟩
  haveI : IsTotal (List Char) pathLe := ⟨pathLe_total⟩
  haveI : IsTrans (List Char) pathLe := ⟨pathLe_trans⟩
  exact List.sorted_insertionSort pathLe _

/-- Witness for C1 at concrete inputs: the digit runs 2 and 10 compare
numerically, so file2 sorts before file10. -/
theorem C1_discovery_natural_order_witness :
    keyCmp (natural_key (['f', 'i', 'l', 'e', '2']))
        (natural_key (['f', 'i', 'l', 'e', '1', '0'])) = some Ordering.lt
      ∧ find_markdown_files
          [['f', '2', '0', '.', 'm', 'd'], ['f', '3', '.', 'm', 'd']] =
        [['f', '3', '.', 'm', 'd'], ['f', '2', '0', '.', 'm', 'd']] := by
  constructor
  · have h := C1_discovery_natural_order.2.1 ['f', 'i', 'l', 'e'] ['2']
      ['1', '0'] (by decide) (by decide) (by decide) (by decide) (by decide)
    exact h.mpr (by decide)
  · have h := (C1_discovery_natural_order.1
      [['f', '2', '0', '.', 'm', 'd'], ['f', '3', '.', 'm', 'd']]).1
    decide

/-- C10: The natural-key comparison is total over all path strings: string
entries occupy the even indices and integer entries the odd indices of
every key, so elementwise comparison of two keys never compares an integer
with a string (the comparison always returns a result) and any two paths
are always ordered one way or the other. -/
theorem C10_natural_key_total :
    (∀ s : List Char, ∀ i : Nat, ∀ h : i < (natural_key s).length,
      (i % 2 = 0 → ∃ cs, (natural_key s).get ⟨i, h⟩ = NKTok.str cs) ∧
      (i % 2 = 1 → ∃ n, (natural_key s).get ⟨i, h⟩ = NKTok.num n))
    ∧ (∀ s t : List Char, (keyCmp (natural_key s) (natural_key t)).isSome
        = true)
    ∧ (∀ s t : List Char, pathLe s t ∨ pathLe t s) := by
  refine ⟨fun s i h => ?_, fun s t => ?_, pathLe_total⟩
  · have hp := altKey_get (natural_key s) true i h (natural_key_alt s)
    exact ⟨fun he => hp.1 ⟨fun _ => rfl, fun _ => he⟩,
      fun ho => hp.2 ⟨fun _ => rfl, fun _ => ho⟩⟩
  · exact keyCmp_some (natural_key s) true (natural_key t)
      (natural_key_alt s) (natural_key_alt t)

/-- Witness for C10 at a concrete input: the key of the path a1b has a
string entry at index 0, a number entry at index 1, and comparison with
the key of b2 succeeds. -/
theorem C10_natural_key_total_witness :
    (∃ cs, (natural_key (['a', '1', 'b'])).get
        ⟨0, by decide⟩ = NKTok.str cs)
      ∧ (∃ n, (natural_key (['a', '1', 'b'])).get
          ⟨1, by decide⟩ = NKTok.num n)
      ∧ (keyCmp (natural_key (['a', '1', 'b']))
          (natural_key (['b', '2']))).isSome = true := by
  refine ⟨?_, ?_, ?_⟩
  · exact (C10_natural_key_total.1 ['a', '1', 'b'] 0 (by decide)).1 (by decide)
  · exact (C10_natural_key_total.1 ['a', '1', 'b'] 1 (by decide)).2 (by decide)
  · exact C10_natural_key_total.2.1 ['a', '1', 'b'] ['b', '2']

/-! ### Path resolution: `(md.parent / rel_link).resolve()` in `fix_link`

An absolute filesystem path is modelled as its list of segments (the path
`/a/b` is `[a, b]`).  A link target is a raw character string. -/

/-- A path segment. -/
abbrev Seg := List Char

/-- Split a string on the slash separator (so `a/b` gives `[a, b]`,
`/a` gives `[[], a]`, and the empty string gives `[[]]`). -/
def splitSlash : List Char → List (List Char)
  | [] => [[]]
  | c :: t =>
    if c = '/' then [] :: splitSlash t
    else
      match splitSlash t with
      | s :: r => (c :: s) :: r
      | [] => [[c]]

/-- One step of the normalization performed by `Path.resolve()`: empty
and `.` segments vanish, `..` removes the last accumulated segment
(staying put at the root), and any other segment is appended. -/
def normStep (acc : List Seg) (seg : Seg) : List Seg :=
  if seg = [] then acc
  else if seg = ['.'] then acc
  else if seg = ['.', '.'] then acc.dropLast
  else acc ++ [seg]

/-- Does the link target denote an absolute path? -/
def isAbsLink (link : List Char) : Bool :=
  match link with
  | c :: _ => c == '/'
  | [] => false

/-- `(md.parent / rel_link).resolve()` from `fix_link`: per pathlib `/`
semantics an absolute link discards the parent, otherwise the link is
joined to the parent's segments; `resolve()` then normalizes the whole
path.  `parent` is the absolute directory of the document `md`, as a
segment list (symlink resolution is outside this model). -/
def resolvePath (parent : List Seg) (link : List Char) : List Seg :=
  if isAbsLink link then (splitSlash link).foldl normStep []
  else (parent ++ splitSlash link).foldl normStep []

/-- Segments joined by slashes. -/
def renderSegs : List Seg → List Char
  | [] => []
  | [s] => s
  | s :: rest => s ++ '/' :: renderSegs rest

/-- Rendering of an absolute path from its segments: `str(Path(...))`.
The empty segment list is the filesystem root `/`. -/
def renderAbs (segs : List Seg) : List Char :=
  '/' :: renderSegs segs

/-- `fix_link` from `merge_markdown`: the replacement produced for a
matched image reference, `f"![{alt}]({(md.parent / rel_link).resolve()})"`. -/
def fix_link (parent : List Seg) (alt link : List Char) : List Char :=
  ('!' :: '[' :: alt) ++ (']' :: '(' :: renderAbs (resolvePath parent link))
    ++ [')']

/-! ### IMAGE_RE and its substitution

`IMAGE_RE = re.compile(r"!\[([^\]]*)\]\((?!https?://)([^)]+)\)")` and
`IMAGE_RE.sub(fix_link, text)`. -/

/-- The literal `http://`. -/
def httpPat : List Char := ['h', 't', 't', 'p', ':', '/', '/']

/-- The literal `https://`. -/
def httpsPat : List Char := ['h', 't', 't', 'p', 's', ':', '/', '/']

/-- The negative lookahead `(?!https?://)`: does the text at this position
begin with `http://` or `https://`? -/
def isHttpUrl (s : List Char) : Bool :=
  List.isPrefixOf httpPat s || List.isPrefixOf httpsPat s

/-- Attempt to match `IMAGE_RE` at the head of `s`: `!`, `[`, a greedy run
of non-`]` characters (the alt text), `]`, `(`, the lookahead refusing
`https?://`, a greedy non-empty run of non-`)` characters (the link
target), `)`.  On success, returns the alt text, link target and the
remaining input. -/
def tryMatch (s : List Char) : Option (List Char × List Char × List Char) :=
  match s with
  | c1 :: c2 :: r =>
    if c1 = '!' ∧ c2 = '[' then
      match r.dropWhile (fun c => !(c == ']')) with
      | b1 :: b2 :: r2 =>
        if b1 = ']' ∧ b2 = '(' then
          if isHttpUrl r2 then none
          else
            match r2.dropWhile (fun c => !(c == ')')) with
            | p :: r3 =>
              if p = ')' ∧ r2.takeWhile (fun c => !(c == ')')) ≠ [] then
                some (r.takeWhile (fun c => !(c == ']')),
                  r2.takeWhile (fun c => !(c == ')')), r3)
              else none
            | [] => none
        else none
      | _ => none
    else none
  | _ => none

/-- A successful match consumes at least one character. -/
theorem tryMatch_length : ∀ {s alt tgt rest : List Char},
    tryMatch s = some (alt, tgt, rest) → rest.length < s.length := by
  intro s alt tgt rest h
  rcases s with _ | ⟨c1, s1⟩
  · exact absurd h (by simp [tryMatch])
  rcases s1 with _ | ⟨c2, r⟩
  · exact absurd h (by simp [tryMatch])
  simp only [tryMatch] at h
  by_cases h12 : c1 = '!' ∧ c2 = '['
  · rw [if_pos h12] at h
    rcases hdw : r.dropWhile (fun c => !(c == ']')) with _ | ⟨b1, r1t⟩
    · rw [hdw] at h; exact absurd h (by simp)
    rcases r1t with _ | ⟨b2, r2⟩
    · rw [hdw] at h; exact absurd h (by simp)
    rw [hdw] at h
    dsimp only [] at h
    by_cases hb : b1 = ']' ∧ b2 = '('
    · rw [if_pos hb] at h
      by_cases hurl : isHttpUrl r2 = true
      · rw [if_pos hurl] at h; exact absurd h (by simp)
      · rw [if_neg hurl] at h
        rcases hdw2 : r2.dropWhile (fun c => !(c == ')')) with _ | ⟨p, r3⟩
        · rw [hdw2] at h; exact absurd h (by simp)
        rw [hdw2] at h
        dsimp only [] at h
        by_cases hp : p = ')' ∧ r2.takeWhile (fun c => !(c == ')')) ≠ []
        · rw [if_pos hp] at h
          have h4 : r3 = rest := congrArg (fun q => q.2.2) (Option.some.inj h)
          subst h4
          have e1 := congrArg List.length
            (List.takeWhile_append_dropWhile (fun c => !(c == ']')) r)
          rw [hdw] at e1
          have e2 := congrArg List.length
            (List.takeWhile_append_dropWhile (fun c => !(c == ')')) r2)
          rw [hdw2] at e2
          simp only [List.length_append, List.length_cons] at e1 e2
          simp only [List.length_cons]
          omega
        · rw [if_neg hp] at h; exact absurd h (by simp)
    · rw [if_neg hb] at h; exact absurd h (by simp)
  · rw [if_neg h12] at h; exact absurd h (by simp)

/-- Fuelled left-to-right scan of `IMAGE_RE.sub(f, text)`: at each
position, the leftmost-first match is replaced by `f alt target` and the
scan resumes after it; on failure the character is copied.  The fuel only
serves termination; `reSub` supplies enough for it never to run out. -/
def reSubF (f : List Char → List Char → List Char) :
    Nat → List Char → List Char
  | 0, s => s
  | fuel + 1, s =>
    match s with
    | [] => []
    | c :: t =>
      match tryMatch (c :: t) with
      | some (alt, tgt, rest) => f alt tgt ++ reSubF f fuel rest
      | none => c :: reSubF f fuel t

/-- `IMAGE_RE.sub(f, text)`. -/
def reSub (f : List Char → List Char → List Char) (s : List Char) :
    List Char :=
  reSubF f s.length s

theorem reSubF_nil (f : List Char → List Char → List Char) :
    ∀ n, reSubF f n [] = []
  | 0 => rfl
  | _ + 1 => rfl

theorem reSubF_fuel (f : List Char → List Char → List Char) :
    ∀ (n1 : Nat) (s : List Char) (n2 : Nat), s.length ≤ n1 →
      s.length ≤ n2 → reSubF f n1 s = reSubF f n2 s := by
  intro n1
  induction n1 with
  | zero =>
    intro s n2 h1 _
    have hs : s = [] := List.eq_nil_of_length_eq_zero (by omega)
    subst hs
    rw [reSubF_nil, reSubF_nil]
  | succ m ih =>
    intro s n2 h1 h2
    cases s with
    | nil => rw [reSubF_nil, reSubF_nil]
    | cons c t =>
      cases n2 with
      | zero => simp at h2
      | succ m2 =>
        simp only [List.length_cons] at h1 h2
        rcases hm : tryMatch (c :: t) with _ | ⟨alt, tgt, rest⟩
        · simp only [reSubF, hm]
          congr 1
          exact ih t m2 (by omega) (by omega)
        · simp only [reSubF, hm]
          congr 1
          have hl := tryMatch_length hm
          simp only [List.length_cons] at hl
          exact ih rest m2 (by omega) (by omega)

theorem reSub_nil (f : List Char → List Char → List Char) :
    reSub f [] = [] := rfl

theorem reSub_cons_match {f : List Char → List Char → List Char} {c : Char}
    {t alt tgt rest : List Char}
    (h : tryMatch (c :: t) = some (alt, tgt, rest)) :
    reSub f (c :: t) = f alt tgt ++ reSub f rest := by
  unfold reSub
  have hl := tryMatch_length h
  simp only [List.length_cons] at hl ⊢
  simp only [reSubF, h]
  congr 1
  exact reSubF_fuel f t.length rest rest.length (by omega) (le_refl _)

theorem reSub_cons_nomatch {f : List Char → List Char → List Char}
    {c : Char} {t : List Char} (h : tryMatch (c :: t) = none) :
    reSub f (c :: t) = c :: reSub f t := by
  unfold reSub
  simp only [List.length_cons]
  simp only [reSubF, h]

/-- The regex can only match at an exclamation mark. -/
theorem tryMatch_not_bang {c : Char} {t : List Char} (hc : c ≠ '!') :
    tryMatch (c :: t) = none := by
  cases t with
  | nil => rfl
  | cons c2 r =>
    simp only [tryMatch]
    rw [if_neg]
    rintro ⟨h1, _⟩
    exact hc h1

/-- Text free of exclamation marks is copied untouched by the scan. -/
theorem reSub_no_bang {f : List Char → List Char → List Char} :
    ∀ {chunk rest : List Char}, (∀ c ∈ chunk, c ≠ '!') →
      reSub f (chunk ++ rest) = chunk ++ reSub f rest := by
  intro chunk
  induction chunk with
  | nil => intro rest _; rw [List.nil_append, List.nil_append]
  | cons c ch ih =>
    intro rest h
    have hc : c ≠ '!' := h c (by simp)
    rw [List.cons_append, reSub_cons_nomatch (tryMatch_not_bang hc),
      ih (fun a ha => h a (by simp [ha])), List.cons_append]

/-! #### Matching an image reference at the head of the input -/

theorem isPrefixOf_append_cons_false {pat : List Char} {c : Char} :
    ∀ {l : List Char} {rest : List Char}, c ∉ pat →
      List.isPrefixOf pat l = false →
      List.isPrefixOf pat (l ++ c :: rest) = false := by
  induction pat with
  | nil => intro l rest _ h; simp [List.isPrefixOf] at h
  | cons p ps ih =>
    intro l rest hc h
    cases l with
    | nil =>
      have hpc : p ≠ c := fun he => hc (by simp [he])
      simp [List.isPrefixOf, hpc]
    | cons x xs =>
      simp only [List.cons_append, List.isPrefixOf] at h ⊢
      by_cases hpx : p = x
      · subst hpx
        simp only [beq_self_eq_true, Bool.true_and] at h ⊢
        exact ih (fun hin => hc (by simp [hin])) h
      · have : (p == x) = false := by simp [hpx]
        simp [this]

theorem isHttpUrl_append_paren {l rest : List Char}
    (h : isHttpUrl l = false) : isHttpUrl (l ++ ')' :: rest) = false := by
  unfold isHttpUrl at h ⊢
  rcases Bool.or_eq_false_iff.mp h with ⟨h1, h2⟩
  rw [isPrefixOf_append_cons_false (by decide) h1,
    isPrefixOf_append_cons_false (by decide) h2]
  rfl

theorem isHttpUrl_append {l x : List Char} (h : isHttpUrl l = true) :
    isHttpUrl (l ++ x) = true := by
  unfold isHttpUrl at h ⊢
  rcases (Bool.or_eq_true _ _).mp h with h1 | h1
  · rw [List.isPrefixOf_iff_prefix] at h1
    have h2 : httpPat <+: l ++ x := h1.trans (List.prefix_append l x)
    rw [List.isPrefixOf_iff_prefix.mpr h2]
    rfl
  · rw [List.isPrefixOf_iff_prefix] at h1
    have h2 : httpsPat <+: l ++ x := h1.trans (List.prefix_append l x)
    rw [List.isPrefixOf_iff_prefix.mpr h2, Bool.or_true]

/-- The regex matches a well-formed image reference with a non-URL target
at the head of the input, capturing exactly its alt text and target. -/
theorem tryMatch_at_img {a l rest : List Char}
    (ha : ∀ c ∈ a, c ≠ ']') (hl : l ≠ []) (hlp : ∀ c ∈ l, c ≠ ')')
    (hurl : isHttpUrl l = false) :
    tryMatch ('!' :: '[' :: (a ++ ']' :: '(' :: (l ++ ')' :: rest)))
      = some (a, l, rest) := by
  have ha2 : ∀ c ∈ a, (!(c == ']')) = true := by
    intro c hc2; simpa using ha c hc2
  have hlp2 : ∀ c ∈ l, (!(c == ')')) = true := by
    intro c hc2; simpa using hlp c hc2
  have htwa : (a ++ ']' :: '(' :: (l ++ ')' :: rest)).takeWhile
      (fun c => !(c == ']')) = a := by
    rw [List.takeWhile_append_of_pos ha2, List.takeWhile_cons,
      if_neg (by decide), List.append_nil]
  have hdwa : (a ++ ']' :: '(' :: (l ++ ')' :: rest)).dropWhile
      (fun c => !(c == ']')) = ']' :: '(' :: (l ++ ')' :: rest) := by
    rw [List.dropWhile_append_of_pos ha2, List.dropWhile_cons,
      if_neg (by decide)]
  have htwl : (l ++ ')' :: rest).takeWhile (fun c => !(c == ')')) = l := by
    rw [List.takeWhile_append_of_pos hlp2, List.takeWhile_cons,
      if_neg (by decide), List.append_nil]
  have hdwl : (l ++ ')' :: rest).dropWhile (fun c => !(c == ')'))
      = ')' :: rest := by
    rw [List.dropWhile_append_of_pos hlp2, List.dropWhile_cons,
      if_neg (by decide)]
  simp only [tryMatch]
  rw [if_pos (by simp), hdwa]
  dsimp only []
  rw [if_pos ⟨rfl, rfl⟩]
  rw [if_neg (by rw [isHttpUrl_append_paren hurl]; simp)]
  rw [hdwl]
  dsimp only []
  rw [if_pos ⟨rfl, by rw [htwl]; exact hl⟩]
  rw [htwa, htwl]

/-- The lookahead blocks the match when the target is a URL. -/
theorem tryMatch_at_img_url {a l rest : List Char}
    (ha : ∀ c ∈ a, c ≠ ']') (hurl : isHttpUrl l = true) :
    tryMatch ('!' :: '[' :: (a ++ ']' :: '(' :: (l ++ ')' :: rest)))
      = none := by
  have ha2 : ∀ c ∈ a, (!(c == ']')) = true := by
    intro c hc2; simpa using ha c hc2
  have hdwa : (a ++ ']' :: '(' :: (l ++ ')' :: rest)).dropWhile
      (fun c => !(c == ']')) = ']' :: '(' :: (l ++ ')' :: rest) := by
    rw [List.dropWhile_append_of_pos ha2, List.dropWhile_cons,
      if_neg (by decide)]
  simp only [tryMatch]
  rw [if_pos (by simp), hdwa]
  dsimp only []
  rw [if_pos ⟨rfl, rfl⟩]
  rw [if_pos (isHttpUrl_append hurl)]

/-! ### Structured markdown text

To quantify over documents, a document's text is given as a list of
fragments; `renderDoc` produces the raw character string the Python code
actually reads.  The substitution operates on the raw string. -/

/-- A fragment of a document's text: literal text, or an image reference
`![alt](target)`. -/
inductive MdItem where
  | txt : List Char → MdItem
  | img : List Char → List Char → MdItem
deriving DecidableEq, Repr

/-- Raw text of a fragment. -/
def renderItem : MdItem → List Char
  | .txt s => s
  | .img a l => '!' :: '[' :: (a ++ ']' :: '(' :: (l ++ [')']))

/-- Raw text of a document. -/
def renderDoc (items : List MdItem) : List Char :=
  (items.map renderItem).join

/-- Well-formedness of a fragment: literal text contains no exclamation
mark (so no image-reference syntax can start inside it), alt texts contain
no closing bracket and no exclamation mark, and link targets are
non-empty and contain no closing parenthesis and no exclamation mark. -/
def itemWF : MdItem → Prop
  | .txt s => ∀ c ∈ s, c ≠ '!'
  | .img a l => (∀ c ∈ a, c ≠ ']' ∧ c ≠ '!') ∧ l ≠ [] ∧
      (∀ c ∈ l, c ≠ ')' ∧ c ≠ '!')

instance : DecidablePred itemWF
  | .txt s => inferInstanceAs (Decidable (∀ c ∈ s, c ≠ '!'))
  | .img a l => inferInstanceAs (Decidable ((∀ c ∈ a, c ≠ ']' ∧ c ≠ '!')
      ∧ l ≠ [] ∧ (∀ c ∈ l, c ≠ ')' ∧ c ≠ '!')))

/-- The action of `IMAGE_RE.sub(fix_link, ·)` on fragments: local image
targets are resolved against the document's own directory, URL targets
and literal text are untouched. -/
def substItem (parent : List Seg) : MdItem → MdItem
  | .txt s => .txt s
  | .img a l =>
    if isHttpUrl l then .img a l
    else .img a (renderAbs (resolvePath parent l))

theorem mem_imgChunk {c : Char} {a l : List Char}
    (hc : c ∈ '[' :: (a ++ ']' :: '(' :: (l ++ [')']))) :
    c = '[' ∨ c ∈ a ∨ c = ']' ∨ c = '(' ∨ c ∈ l ∨ c = ')' := by
  rcases List.mem_cons.mp hc with h | h
  · exact Or.inl h
  rcases List.mem_append.mp h with h | h
  · exact Or.inr (Or.inl h)
  rcases List.mem_cons.mp h with h | h
  · exact Or.inr (Or.inr (Or.inl h))
  rcases List.mem_cons.mp h with h | h
  · exact Or.inr (Or.inr (Or.inr (Or.inl h)))
  rcases List.mem_append.mp h with h | h
  · exact Or.inr (Or.inr (Or.inr (Or.inr (Or.inl h))))
  · rw [List.mem_singleton] at h
    exact Or.inr (Or.inr (Or.inr (Or.inr (Or.inr h))))

theorem fix_link_eq_render (parent : List Seg) (a l : List Char) :
    fix_link parent a l
      = renderItem (.img a (renderAbs (resolvePath parent l))) := by
  simp [fix_link, renderItem]

/-- A well-formed URL image reference passes through the substitution
byte-for-byte. -/
theorem reSub_img_url {f : List Char → List Char → List Char}
    {a l rest : List Char} (ha : ∀ c ∈ a, c ≠ ']' ∧ c ≠ '!')
    (hl : ∀ c ∈ l, c ≠ ')' ∧ c ≠ '!') (hurl : isHttpUrl l = true) :
    reSub f (renderItem (.img a l) ++ rest)
      = renderItem (.img a l) ++ reSub f rest := by
  have hshape : renderItem (.img a l) ++ rest
      = '!' :: '[' :: (a ++ ']' :: '(' :: (l ++ ')' :: rest)) := by
    simp [renderItem]
  rw [hshape]
  have hnone := @tryMatch_at_img_url a l rest (fun c hc => (ha c hc).1) hurl
  rw [reSub_cons_nomatch hnone]
  have hchunk : ('[' :: (a ++ ']' :: '(' :: (l ++ ')' :: rest)))
      = ('[' :: (a ++ ']' :: '(' :: (l ++ [')']))) ++ rest := by
    simp
  rw [hchunk, reSub_no_bang]
  · simp [renderItem]
  · intro c hc
    rcases mem_imgChunk hc with h | h | h | h | h | h
    · subst h; decide
    · exact (ha c h).2
    · subst h; decide
    · subst h; decide
    · exact (hl c h).2
    · subst h; decide

/-- A well-formed local image reference is replaced by `f alt target` and
the scan resumes right after it.  (The match consumes the whole reference,
so only the alt text's bracket-freeness and the target's
parenthesis-freeness matter.) -/
theorem reSub_img_local {f : List Char → List Char → List Char}
    {a l rest : List Char} (ha : ∀ c ∈ a, c ≠ ']')
    (hl : l ≠ []) (hlp : ∀ c ∈ l, c ≠ ')')
    (hurl : isHttpUrl l = false) :
    reSub f (renderItem (.img a l) ++ rest)
      = f a l ++ reSub f rest := by
  have hshape : renderItem (.img a l) ++ rest
      = '!' :: '[' :: (a ++ ']' :: '(' :: (l ++ ')' :: rest)) := by
    simp [renderItem]
  rw [hshape]
  have hsome := @tryMatch_at_img a l rest ha hl hlp hurl
  rw [reSub_cons_match hsome]

/-- `IMAGE_RE.sub(fix_link, render items)` renders the fragment-level
substitution: exactly the local image references are rewritten and
every other byte is copied unchanged. -/
theorem reSub_render (parent : List Seg) :
    ∀ items : List MdItem, (∀ i ∈ items, itemWF i) →
      reSub (fix_link parent) (renderDoc items)
        = renderDoc (items.map (substItem parent)) := by
  intro items
  induction items with
  | nil => intro _; rfl
  | cons it its ih =>
    intro hwf
    have hwit : itemWF it := hwf it (by simp)
    have hwits : ∀ i ∈ its, itemWF i := fun i hi => hwf i (by simp [hi])
    have hdoc : renderDoc (it :: its) = renderItem it ++ renderDoc its := by
      simp [renderDoc]
    have hdoc2 : renderDoc ((it :: its).map (substItem parent))
        = renderItem (substItem parent it)
          ++ renderDoc (its.map (substItem parent)) := by
      simp [renderDoc]
    rw [hdoc, hdoc2]
    cases it with
    | txt s =>
      simp only [renderItem, substItem]
      rw [reSub_no_bang hwit, ih hwits]
    | img a l =>
      rcases hwit with ⟨ha, hlne, hlp⟩
      by_cases hurl : isHttpUrl l = true
      · rw [reSub_img_url ha hlp hurl, ih hwits]
        simp [substItem, hurl]
      · have hurl2 : isHttpUrl l = false := by simpa using hurl
        rw [reSub_img_local (fun c hc => (ha c hc).1) hlne
          (fun c hc => (hlp c hc).1) hurl2, ih hwits, fix_link_eq_render]
        simp [substItem, hurl2]


/-! ### `merge_markdown` and the artifact-producing slice of `run`

IO is modelled with `Except`: `md.read_text` raising (unreadable or
undecodable file) is an `Except.error` carrying the message text of the
raised exception (Python's `str(e)`), exactly what `run`'s
`except Exception as e` clause prints before `sys.exit(1)`.  The runtime
supplies that message: CPython's `OSError` message names the offending
file, while a `UnicodeDecodeError` message names codec, byte and position
but no file path.  On an abort the temp directory holding the partial file
is removed by `run`'s `finally`, so no artifact is produced. -/

/-- A source document: its absolute directory (`md.parent`, as segments),
its path string, and the outcome of `md.read_text`: the text, or the
message of the raised exception. -/
structure SrcDoc where
  parent : List Seg
  path : List Char
  content : Except (List Char) (List Char)

/-- Modelled from the runtime: the message of the `UnicodeDecodeError`
raised by `read_text` on a file whose first byte is 0xff; it carries no
file path (quotes of the original message omitted). -/
def utf8DecodeMsg : List Char :=
  (("utf-8 codec can not decode byte 0xff in position 0: " ++
    "invalid start byte").toList)

/-- Does `needle` occur as a contiguous substring of `hay`? -/
def hasSubstr : List Char → List Char → Bool
  | needle, [] => needle.isEmpty
  | needle, c :: t => List.isPrefixOf needle (c :: t) || hasSubstr needle t

/-- The per-document loop of `merge_markdown` in src/mdfusion/mdfusion.py:
each readable document contributes its text with image links rewritten by
`IMAGE_RE.sub(fix_link, text)` followed by the blank-line separator; the
first failing read aborts the merge, and the raised exception's message is
what gets reported. -/
def mergeDocs : List SrcDoc → Except (List Char) (List Char)
  | [] => .ok []
  | d :: ds =>
    match d.content with
    | .error e => .error e
    | .ok text =>
      (mergeDocs ds).map
        (fun restOut =>
          reSub (fix_link d.parent) text ++ ['\n', '\n'] ++ restOut)

/-- `merge_markdown(md_files, merged_md, metadata)` from
src/mdfusion/mdfusion.py: the metadata block first when non-empty, then
the documents in order.  This version writes no page-break marker. -/
def merge_markdown (docs : List SrcDoc) (metadata : List Char) :
    Except (List Char) (List Char) :=
  (mergeDocs docs).map
    (fun body => (if metadata = [] then [] else metadata) ++ body)

/-- The page-break marker `\newpage` plus newline written by the legacy
standalone script src/mdfusion.py before each document. -/
def newpageMarker : List Char :=
  ['\\', 'n', 'e', 'w', 'p', 'a', 'g', 'e', '\n']

/-- The per-document loop of `merge_markdown` in the legacy standalone
script src/mdfusion.py, which writes the page-break marker before each
document. -/
def mergeDocsLegacy : List SrcDoc → Except (List Char) (List Char)
  | [] => .ok []
  | d :: ds =>
    match d.content with
    | .error e => .error e
    | .ok text =>
      (mergeDocsLegacy ds).map
        (fun restOut => newpageMarker
          ++ reSub (fix_link d.parent) text ++ ['\n', '\n'] ++ restOut)

/-- `merge_markdown` from the legacy standalone script src/mdfusion.py. -/
def merge_markdown_legacy (docs : List SrcDoc) (metadata : List Char) :
    Except (List Char) (List Char) :=
  (mergeDocsLegacy docs).map
    (fun body => (if metadata = [] then [] else metadata) ++ body)

/-- Abstract filesystem for `run`: the root-relative listing of all files
under root_dir, plus each file's absolute directory and its content. -/
structure FileSys where
  files : List (List Char)
  parentOf : List Char → List Seg
  contentOf : List Char → Except (List Char) (List Char)

/-- The artifact-producing slice of `run(params)` from
src/mdfusion/mdfusion.py: discover documents, fail with the no-files
message when none are found (sys.exit(1) before any file is created),
otherwise merge. -/
def run (fs : FileSys) (metadata : List Char) :
    Except (List Char) (List Char) :=
  if find_markdown_files fs.files = [] then
    .error (("No Markdown files found").toList)
  else
    merge_markdown
      ((find_markdown_files fs.files).map
        (fun p => ⟨fs.parentOf p, p, fs.contentOf p⟩))
      metadata

/-! ### Configuration merging in `main`

`main` in src/mdfusion/mdfusion.py parses the command line into a
`RunParams`, then applies the config file:
for every config key `k` with value `v`,
`if getattr(params, k, None) in (None, False, [], ""): setattr(params, k, v)`.
A `None`/`False`/empty CLI value is therefore replaced by the config
value; note that `Path("")` equals none of the sentinels, so a `root_dir`
is only replaced when absent. -/

/-- The caller-facing parameter record (the `RunParams` dataclass fields
the claims concern). -/
structure RunParams where
  root_dir : Option (List Char)
  output : Option (List Char)
  no_toc : Bool
  title_page : Bool
  title : Option (List Char)
  author : Option (List Char)
  pandoc_args : List (List Char)
deriving DecidableEq, Repr

/-- The `[mdfusion]` table of the TOML config file: `none` marks an
absent key. -/
structure ConfigTbl where
  root_dir : Option (List Char)
  output : Option (List Char)
  no_toc : Option Bool
  title_page : Option Bool
  title : Option (List Char)
  author : Option (List Char)
  pandoc_args : Option (List (List Char))
deriving DecidableEq, Repr

/-- Python `x in (None, False, [], "")` for an optional string field:
true for `None` and for the empty string. -/
def falsyStr (v : Option (List Char)) : Bool :=
  v = none ∨ v = some []

/-- The merging loop of `main`: each config value replaces the CLI value
exactly when the CLI value is a falsy sentinel.  `root_dir` is a `Path`,
which equals no sentinel except `None`. -/
def applyConfig (p : RunParams) (c : ConfigTbl) : RunParams where
  root_dir :=
    match c.root_dir with
    | some v => if p.root_dir = none then some v else p.root_dir
    | none => p.root_dir
  output :=
    match c.output with
    | some v => if falsyStr p.output then some v else p.output
    | none => p.output
  no_toc :=
    match c.no_toc with
    | some v => if p.no_toc = false then v else p.no_toc
    | none => p.no_toc
  title_page :=
    match c.title_page with
    | some v => if p.title_page = false then v else p.title_page
    | none => p.title_page
  title :=
    match c.title with
    | some v => if falsyStr p.title then some v else p.title
    | none => p.title
  author :=
    match c.author with
    | some v => if falsyStr p.author then some v else p.author
    | none => p.author
  pandoc_args :=
    match c.pandoc_args with
    | some v => if p.pandoc_args = [] then v else p.pandoc_args
    | none => p.pandoc_args


/-! ### Properties of path resolution -/

/-- A normalized path segment: non-empty and not a dot segment. -/
def plainSeg (s : Seg) : Prop :=
  s ≠ [] ∧ s ≠ ['.'] ∧ s ≠ ['.', '.']

instance : DecidablePred plainSeg := fun s => by
  unfold plainSeg; infer_instance

theorem normStep_plain {acc : List Seg} {seg : Seg}
    (h : ∀ s ∈ acc, plainSeg s) : ∀ s ∈ normStep acc seg, plainSeg s := by
  unfold normStep
  split_ifs with h1 h2 h3
  · exact h
  · exact h
  · intro s hs
    exact h s (List.dropLast_subset acc hs)
  · intro s hs
    rcases List.mem_append.mp hs with hs | hs
    · exact h s hs
    · rw [List.mem_singleton] at hs
      subst hs
      exact ⟨h1, h2, h3⟩

/-- Normalization never leaves an empty or dot segment in the result. -/
theorem foldl_normStep_plain : ∀ (l : List Seg) (acc : List Seg),
    (∀ s ∈ acc, plainSeg s) → ∀ s ∈ l.foldl normStep acc, plainSeg s := by
  intro l
  induction l with
  | nil => intro acc h; exact h
  | cons seg t ih =>
    intro acc h
    rw [List.foldl_cons]
    exact ih (normStep acc seg) (normStep_plain h)

/-- Folding plain segments just appends them. -/
theorem foldl_normStep_app : ∀ (l : List Seg) (acc : List Seg),
    (∀ s ∈ l, plainSeg s) → l.foldl normStep acc = acc ++ l := by
  intro l
  induction l with
  | nil => intro acc _; simp
  | cons seg t ih =>
    intro acc h
    have hseg : plainSeg seg := h seg (by simp)
    have hstep : normStep acc seg = acc ++ [seg] := by
      unfold normStep
      rw [if_neg hseg.1, if_neg hseg.2.1, if_neg hseg.2.2]
    rw [List.foldl_cons, hstep, ih (acc ++ [seg]) (fun s hs => h s (by simp [hs]))]
    simp

/-- Every segment of the result comes from the accumulator or the input. -/
theorem foldl_normStep_subset : ∀ (l : List Seg) (acc : List Seg),
    ∀ s ∈ l.foldl normStep acc, s ∈ acc ∨ s ∈ l := by
  intro l
  induction l with
  | nil => intro acc s hs; exact Or.inl hs
  | cons seg t ih =>
    intro acc s hs
    rw [List.foldl_cons] at hs
    rcases ih (normStep acc seg) s hs with h | h
    · unfold normStep at h
      split_ifs at h
      · exact Or.inl h
      · exact Or.inl h
      · exact Or.inl (List.dropLast_subset acc h)
      · rcases List.mem_append.mp h with h | h
        · exact Or.inl h
        · rw [List.mem_singleton] at h
          subst h
          exact Or.inr (by simp)
    · exact Or.inr (by simp [h])

/-- The segments produced by `splitSlash` contain no slash. -/
theorem splitSlash_no_slash : ∀ (s : List Char),
    ∀ seg ∈ splitSlash s, ∀ c ∈ seg, c ≠ '/' := by
  intro s
  induction s with
  | nil =>
    intro seg hseg c hc
    rw [show splitSlash [] = [[]] from rfl, List.mem_singleton] at hseg
    subst hseg
    simp at hc
  | cons x t ih =>
    intro seg hseg c hc
    by_cases hx : x = '/'
    · subst hx
      rw [show splitSlash ('/' :: t) = [] :: splitSlash t from by
        simp [splitSlash]] at hseg
      rcases List.mem_cons.mp hseg with h | h
      · subst h; simp at hc
      · exact ih seg h c hc
    · rcases hsp : splitSlash t with _ | ⟨s1, r⟩
      · have : splitSlash t ≠ [] := by
          cases t with
          | nil => simp [splitSlash]
          | cons y ys =>
            simp only [splitSlash]
            split_ifs
            · simp
            · rcases splitSlash ys with _ | _ <;> simp
        exact absurd hsp this
      · rw [show splitSlash (x :: t) = (x :: s1) :: r from by
          simp only [splitSlash]
          rw [if_neg hx, hsp]] at hseg
        rcases List.mem_cons.mp hseg with h | h
        · subst h
          rcases List.mem_cons.mp hc with h2 | h2
          · subst h2; exact hx
          · exact ih s1 (by rw [hsp]; simp) c h2
        · exact ih seg (by rw [hsp]; simp [h]) c hc

/-- Every character of a `splitSlash` segment occurs in the input. -/
theorem splitSlash_chars : ∀ (s : List Char),
    ∀ seg ∈ splitSlash s, ∀ c ∈ seg, c ∈ s := by
  intro s
  induction s with
  | nil =>
    intro seg hseg c hc
    rw [show splitSlash [] = [[]] from rfl, List.mem_singleton] at hseg
    subst hseg
    simp at hc
  | cons x t ih =>
    intro seg hseg c hc
    by_cases hx : x = '/'
    · subst hx
      rw [show splitSlash ('/' :: t) = [] :: splitSlash t from by
        simp [splitSlash]] at hseg
      rcases List.mem_cons.mp hseg with h | h
      · subst h; simp at hc
      · exact List.mem_cons_of_mem _ (ih seg h c hc)
    · rcases hsp : splitSlash t with _ | ⟨s1, r⟩
      · have : splitSlash t ≠ [] := by
          cases t with
          | nil => simp [splitSlash]
          | cons y ys =>
            simp only [splitSlash]
            split_ifs
            · simp
            · rcases splitSlash ys with _ | _ <;> simp
        exact absurd hsp this
      · rw [show splitSlash (x :: t) = (x :: s1) :: r from by
          simp only [splitSlash]
          rw [if_neg hx, hsp]] at hseg
        rcases List.mem_cons.mp hseg with h | h
        · subst h
          rcases List.mem_cons.mp hc with h2 | h2
          · subst h2; simp
          · exact List.mem_cons_of_mem _ (ih s1 (by rw [hsp]; simp) c h2)
        · exact List.mem_cons_of_mem _ (ih seg (by rw [hsp]; simp [h]) c hc)


/-- A slash-free string is a single segment. -/
theorem splitSlash_no_slash_id : ∀ (s : List Char),
    (∀ c ∈ s, c ≠ '/') → splitSlash s = [s] := by
  intro s
  induction s with
  | nil => intro _; rfl
  | cons x t ih =>
    intro h
    have hx : x ≠ '/' := h x (by simp)
    have ht := ih (fun c hc => h c (by simp [hc]))
    simp only [splitSlash]
    rw [if_neg hx, ht]

/-- Splitting distributes over a slash that follows a slash-free chunk. -/
theorem splitSlash_append_slash : ∀ (s1 : List Char) (x : List Char),
    (∀ c ∈ s1, c ≠ '/') →
    splitSlash (s1 ++ '/' :: x) = s1 :: splitSlash x := by
  intro s1
  induction s1 with
  | nil =>
    intro x _
    rw [List.nil_append]
    simp [splitSlash]
  | cons c cs ih =>
    intro x h
    have hc : c ≠ '/' := h c (by simp)
    have ht := ih x (fun a ha => h a (by simp [ha]))
    rw [List.cons_append]
    simp only [splitSlash]
    rw [if_neg hc, ht]

/-- Splitting the rendering of slash-free segments recovers them. -/
theorem splitSlash_renderSegs : ∀ (r : List Seg), r ≠ [] →
    (∀ s ∈ r, ∀ c ∈ s, c ≠ '/') → splitSlash (renderSegs r) = r := by
  intro r
  induction r with
  | nil => intro h _; exact absurd rfl h
  | cons s1 rest ih =>
    intro _ h
    cases rest with
    | nil =>
      show splitSlash (renderSegs [s1]) = [s1]
      rw [show renderSegs [s1] = s1 from rfl]
      exact splitSlash_no_slash_id s1 (h s1 (by simp))
    | cons s2 rs =>
      rw [show renderSegs (s1 :: s2 :: rs) = s1 ++ '/' :: renderSegs (s2 :: rs)
        from rfl]
      rw [splitSlash_append_slash s1 _ (h s1 (by simp)),
        ih (by simp) (fun s hs c hc => h s (by simp [hs]) c hc)]

/-- Characters of rendered segments are slashes or segment characters. -/
theorem renderSegs_chars : ∀ (r : List Seg), ∀ c ∈ renderSegs r,
    c = '/' ∨ ∃ s ∈ r, c ∈ s := by
  intro r
  induction r with
  | nil => intro c hc; simp [renderSegs] at hc
  | cons s1 rest ih =>
    intro c hc
    cases rest with
    | nil =>
      rw [show renderSegs [s1] = s1 from rfl] at hc
      exact Or.inr ⟨s1, by simp, hc⟩
    | cons s2 rs =>
      rw [show renderSegs (s1 :: s2 :: rs) = s1 ++ '/' :: renderSegs (s2 :: rs)
        from rfl] at hc
      rcases List.mem_append.mp hc with h | h
      · exact Or.inr ⟨s1, by simp, h⟩
      · rcases List.mem_cons.mp h with h | h
        · exact Or.inl h
        · rcases ih c h with h2 | ⟨s, hs, hcs⟩
          · exact Or.inl h2
          · exact Or.inr ⟨s, by simp [hs], hcs⟩

/-- The rendering of an absolute path is itself an absolute link. -/
theorem isAbsLink_renderAbs (r : List Seg) :
    isAbsLink (renderAbs r) = true := rfl

/-- An absolute path target never carries a URL scheme. -/
theorem isHttpUrl_slash (x : List Char) : isHttpUrl ('/' :: x) = false := by
  simp [isHttpUrl, httpPat, httpsPat, List.isPrefixOf]

/-- Re-resolving an already-resolved rendered path (against any
directory) returns the same path: the rewrite is idempotent. -/
theorem resolve_roundtrip (p2 : List Seg) (r : List Seg)
    (hplain : ∀ s ∈ r, plainSeg s)
    (hsl : ∀ s ∈ r, ∀ c ∈ s, c ≠ '/') :
    resolvePath p2 (renderAbs r) = r := by
  unfold resolvePath
  rw [if_pos (isAbsLink_renderAbs r)]
  cases r with
  | nil =>
    rw [show renderAbs [] = ['/'] from rfl]
    rfl
  | cons s1 rest =>
    rw [show renderAbs (s1 :: rest) = '/' :: renderSegs (s1 :: rest) from rfl]
    rw [show splitSlash ('/' :: renderSegs (s1 :: rest))
        = [] :: splitSlash (renderSegs (s1 :: rest)) from by simp [splitSlash]]
    rw [splitSlash_renderSegs (s1 :: rest) (by simp) hsl]
    rw [List.foldl_cons]
    rw [show normStep [] [] = [] from rfl]
    exact foldl_normStep_app (s1 :: rest) [] hplain

/-- Every segment of a resolved path is plain: resolution leaves no
empty, dot or dot-dot segments. -/
theorem resolvePath_plain (parent : List Seg) (link : List Char) :
    ∀ s ∈ resolvePath parent link, plainSeg s := by
  unfold resolvePath
  split_ifs
  · exact foldl_normStep_plain _ [] (by simp)
  · exact foldl_normStep_plain _ [] (by simp)

/-- Every segment of a resolved path comes from the parent directory or
from the link itself. -/
theorem resolvePath_subset (parent : List Seg) (link : List Char) :
    ∀ s ∈ resolvePath parent link,
      s ∈ parent ∨ s ∈ splitSlash link := by
  unfold resolvePath
  split_ifs
  · intro s hs
    rcases foldl_normStep_subset _ [] s hs with h | h
    · simp at h
    · exact Or.inr h
  · intro s hs
    rcases foldl_normStep_subset _ [] s hs with h | h
    · simp at h
    · exact List.mem_append.mp h

/-- Resolved paths have slash-free segments whenever the parent does. -/
theorem resolvePath_no_slash (parent : List Seg) (link : List Char)
    (hp : ∀ s ∈ parent, ∀ c ∈ s, c ≠ '/') :
    ∀ s ∈ resolvePath parent link, ∀ c ∈ s, c ≠ '/' := by
  intro s hs c hc
  rcases resolvePath_subset parent link s hs with h | h
  · exact hp s h c hc
  · exact splitSlash_no_slash link s h c hc


/-! ### Claim theorems about link rewriting -/

/-- C2: For every local resource reference with link target L found
inside document D, the substituted target is the absolute form of D's
containing directory joined with L, normalized so that no dot-dot (and no
dot or empty) segments remain; resolution is relative to D's own
directory (the join below), never to the merge root. -/
theorem C2_resource_resolution :
    (∀ (parent : List Seg) (link : List Char),
       ∀ s ∈ resolvePath parent link, s ≠ [] ∧ s ≠ ['.'] ∧ s ≠ ['.', '.'])
    ∧ (∀ (parent : List Seg) (link : List Char),
       (renderAbs (resolvePath parent link)).head? = some '/')
    ∧ (∀ (parent : List Seg) (link : List Char),
        isAbsLink link = false → (∀ s ∈ parent, plainSeg s) →
        (∀ s ∈ splitSlash link, plainSeg s) →
        resolvePath parent link = parent ++ splitSlash link) := by
  refine ⟨fun parent link => resolvePath_plain parent link, fun _ _ => rfl,
    fun parent link habs hp hl => ?_⟩
  unfold resolvePath
  rw [if_neg (by simp [habs])]
  rw [List.foldl_append, foldl_normStep_app parent [] hp, List.nil_append,
    foldl_normStep_app (splitSlash link) parent hl]

/-- Witness for C2: resolving img/../pic.png against /docs/a leaves no
dot segments and equals the plain join for dot-free links. -/
theorem C2_resource_resolution_witness :
    (∀ s ∈ resolvePath [['d'], ['a']] (['i', 'm', 'g', '/', '.', '.',
        '/', 'p', '.', 'p', 'n', 'g']),
      s ≠ [] ∧ s ≠ ['.'] ∧ s ≠ ['.', '.'])
    ∧ resolvePath [['d'], ['a']] (['p', '.', 'p', 'n', 'g'])
        = [['d'], ['a'], ['p', '.', 'p', 'n', 'g']] := by
  constructor
  · exact C2_resource_resolution.1 [['d'], ['a']] _
  · have h := C2_resource_resolution.2.2 [['d'], ['a']]
      (['p', '.', 'p', 'n', 'g']) (by decide)
      (by decide) (by decide)
    rw [h]
    decide

/-- C5: identically named resources in different source directories never
collide: two documents in different (normalized) directories that each
reference an image by the same plain file name resolve to two distinct
absolute paths, each pointing at the file in its own document's
directory. -/
theorem C5_no_collision (p1 p2 : List Seg) (name : List Char)
    (hn1 : name ≠ []) (hn2 : ∀ c ∈ name, c ≠ '/') (hn3 : plainSeg name)
    (h1 : ∀ s ∈ p1, plainSeg s) (h2 : ∀ s ∈ p2, plainSeg s)
    (hne : p1 ≠ p2) :
    resolvePath p1 name = p1 ++ [name]
    ∧ resolvePath p2 name = p2 ++ [name]
    ∧ resolvePath p1 name ≠ resolvePath p2 name := by
  have hsplit : splitSlash name = [name] := splitSlash_no_slash_id name hn2
  have habs : isAbsLink name = false := by
    cases name with
    | nil => rfl
    | cons c t =>
      have : c ≠ '/' := hn2 c (by simp)
      simp [isAbsLink, this]
  have hr1 : resolvePath p1 name = p1 ++ [name] := by
    rw [C2_resource_resolution.2.2 p1 name habs h1
      (by rw [hsplit]; intro s hs; rw [List.mem_singleton] at hs
          subst hs; exact hn3), hsplit]
  have hr2 : resolvePath p2 name = p2 ++ [name] := by
    rw [C2_resource_resolution.2.2 p2 name habs h2
      (by rw [hsplit]; intro s hs; rw [List.mem_singleton] at hs
          subst hs; exact hn3), hsplit]
  refine ⟨hr1, hr2, ?_⟩
  rw [hr1, hr2]
  intro he
  exact hne (List.append_cancel_right he)

/-- Witness for C5: pic.png in /a and in /b. -/
theorem C5_no_collision_witness :
    resolvePath [['a']] (['p', 'i', 'c']) = [['a'], ['p', 'i', 'c']]
    ∧ resolvePath [['b']] (['p', 'i', 'c']) = [['b'], ['p', 'i', 'c']]
    ∧ resolvePath [['a']] (['p', 'i', 'c'])
        ≠ resolvePath [['b']] (['p', 'i', 'c']) := by
  exact C5_no_collision [['a']] [['b']] ['p', 'i', 'c'] (by decide)
    (by decide) (by decide) (by decide) (by decide) (by decide)


/-! ### Idempotence of the rewrite -/

/-- Substitution preserves fragment well-formedness when the document
directory's segments avoid the regex delimiters. -/
theorem substItem_WF (parent : List Seg) (i : MdItem) (hwf : itemWF i)
    (hp : ∀ s ∈ parent, ∀ c ∈ s, c ≠ ')' ∧ c ≠ '!') :
    itemWF (substItem parent i) := by
  cases i with
  | txt s => exact hwf
  | img a l =>
    rcases hwf with ⟨ha, hlne, hlc⟩
    by_cases hurl : isHttpUrl l = true
    · simpa [substItem, hurl] using ⟨ha, hlne, hlc⟩
    · have hurl2 : isHttpUrl l = false := by simpa using hurl
      have hgoal : itemWF (.img a (renderAbs (resolvePath parent l))) := by
        refine ⟨ha, by simp [renderAbs], ?_⟩
        intro c hc
        rw [show renderAbs (resolvePath parent l)
            = '/' :: renderSegs (resolvePath parent l) from rfl] at hc
        rcases List.mem_cons.mp hc with h | h
        · subst h; exact ⟨by decide, by decide⟩
        · rcases renderSegs_chars _ c h with h2 | ⟨seg, hseg, hcseg⟩
          · subst h2; exact ⟨by decide, by decide⟩
          · rcases resolvePath_subset parent l seg hseg with h3 | h3
            · exact hp seg h3 c hcseg
            · exact hlc c (splitSlash_chars l seg h3 c hcseg)
      simpa [substItem, hurl2] using hgoal

/-- Substituting a second time (against any directory) changes nothing:
an already-rewritten reference has an absolute target which re-resolves
to itself. -/
theorem substItem_idem (parent parent2 : List Seg) (i : MdItem)
    (hp : ∀ s ∈ parent, ∀ c ∈ s, c ≠ '/') :
    substItem parent2 (substItem parent i) = substItem parent i := by
  cases i with
  | txt s => rfl
  | img a l =>
    by_cases hurl : isHttpUrl l = true
    · simp [substItem, hurl]
    · have hurl2 : isHttpUrl l = false := by simpa using hurl
      have habs : isHttpUrl (renderAbs (resolvePath parent l)) = false := by
        rw [show renderAbs (resolvePath parent l)
          = '/' :: renderSegs (resolvePath parent l) from rfl]
        exact isHttpUrl_slash _
      rw [show substItem parent (.img a l)
          = .img a (renderAbs (resolvePath parent l)) from by
        simp [substItem, hurl2]]
      rw [show substItem parent2 (.img a (renderAbs (resolvePath parent l)))
          = .img a (renderAbs (resolvePath parent2
              (renderAbs (resolvePath parent l)))) from by
        simp [substItem, habs]]
      rw [resolve_roundtrip parent2 (resolvePath parent l)
        (resolvePath_plain parent l) (resolvePath_no_slash parent l hp)]

/-- Re-running the substitution over already-rewritten text leaves it
unchanged, provided the document directory's segments contain no slash
(inherent to path segments) and no closing parenthesis (forced: a
parenthesis in the directory truncates the re-matched target). -/
theorem reSub_substituted_id (parent parent2 : List Seg) :
    ∀ items : List MdItem, (∀ i ∈ items, itemWF i) →
      (∀ s ∈ parent, ∀ c ∈ s, c ≠ '/' ∧ c ≠ ')') →
      reSub (fix_link parent2) (renderDoc (items.map (substItem parent)))
        = renderDoc (items.map (substItem parent)) := by
  intro items
  induction items with
  | nil => intro _ _; rfl
  | cons it its ih =>
    intro hwf hp
    have hwit : itemWF it := hwf it (by simp)
    have hwits : ∀ i ∈ its, itemWF i := fun i hi => hwf i (by simp [hi])
    have hdoc : renderDoc ((it :: its).map (substItem parent))
        = renderItem (substItem parent it)
          ++ renderDoc (its.map (substItem parent)) := by
      simp [renderDoc]
    rw [hdoc]
    cases it with
    | txt s =>
      rw [show substItem parent (.txt s) = .txt s from rfl]
      show reSub _ (renderItem (.txt s) ++ _) = _
      simp only [renderItem]
      rw [reSub_no_bang hwit, ih hwits hp]
    | img a l =>
      rcases hwit with ⟨ha, hlne, hlc⟩
      by_cases hurl : isHttpUrl l = true
      · rw [show substItem parent (.img a l) = .img a l from by
          simp [substItem, hurl]]
        rw [reSub_img_url ha hlc hurl, ih hwits hp]
      · have hurl2 : isHttpUrl l = false := by simpa using hurl
        rw [show substItem parent (.img a l)
            = .img a (renderAbs (resolvePath parent l)) from by
          simp [substItem, hurl2]]
        have hTne : renderAbs (resolvePath parent l) ≠ [] := by
          simp [renderAbs]
        have hTnp : ∀ c ∈ renderAbs (resolvePath parent l), c ≠ ')' := by
          intro c hc
          rw [show renderAbs (resolvePath parent l)
              = '/' :: renderSegs (resolvePath parent l) from rfl] at hc
          rcases List.mem_cons.mp hc with h | h
          · subst h; decide
          · rcases renderSegs_chars _ c h with h2 | ⟨seg, hseg, hcseg⟩
            · subst h2; decide
            · rcases resolvePath_subset parent l seg hseg with h3 | h3
              · exact (hp seg h3 c hcseg).2
              · exact (hlc c (splitSlash_chars l seg h3 c hcseg)).1
        have hTurl : isHttpUrl (renderAbs (resolvePath parent l))
            = false := by
          rw [show renderAbs (resolvePath parent l)
            = '/' :: renderSegs (resolvePath parent l) from rfl]
          exact isHttpUrl_slash _
        rw [reSub_img_local (fun c hc => (ha c hc).1) hTne hTnp hTurl]
        rw [fix_link_eq_render]
        rw [resolve_roundtrip parent2 (resolvePath parent l)
          (resolvePath_plain parent l)
          (resolvePath_no_slash parent l
            (fun s hs c hc => (hp s hs c hc).1))]
        rw [ih hwits hp]

/-- C6 (amended): every rewritten reference is an absolute path;
re-resolving an already-rewritten (hence absolute) target against any
directory yields the same path; and provided the document's directory
path contains no closing parenthesis, re-running the substitution over
already-rewritten text leaves every reference unchanged. -/
theorem C6_idempotent_rewrite :
    (∀ (parent : List Seg) (link : List Char),
       (renderAbs (resolvePath parent link)).head? = some '/')
    ∧ (∀ (parent parent2 : List Seg) (link : List Char),
        (∀ s ∈ parent, ∀ c ∈ s, c ≠ '/') →
        resolvePath parent2 (renderAbs (resolvePath parent link))
          = resolvePath parent link)
    ∧ (∀ (parent parent2 : List Seg) (items : List MdItem),
        (∀ i ∈ items, itemWF i) →
        (∀ s ∈ parent, ∀ c ∈ s, c ≠ '/' ∧ c ≠ ')') →
        reSub (fix_link parent2) (renderDoc (items.map (substItem parent)))
          = renderDoc (items.map (substItem parent))) := by
  refine ⟨fun _ _ => rfl, fun parent parent2 link hp => ?_,
    fun parent parent2 items hwf hp => reSub_substituted_id parent parent2
      items hwf hp⟩
  exact resolve_roundtrip parent2 (resolvePath parent link)
    (resolvePath_plain parent link) (resolvePath_no_slash parent link hp)

/-- Counterexample to C6 as stated: for a document in the directory
/a/)x the rewrite produces the reference with target /a/)x/p.png, and
re-running the merge mangles it: the regex re-captures the target only up
to the first closing parenthesis, so the reference changes. -/
theorem C6_counterexample :
    reSub (fix_link [['a'], [')', 'x']])
        (renderDoc [MdItem.img ['p'] (("p.png").toList)])
      = (("![p](/a/)x/p.png)").toList)
    ∧ reSub (fix_link [['z']]) (("![p](/a/)x/p.png)").toList)
      = (("![p](/a)x/p.png)").toList)
    ∧ (("![p](/a)x/p.png)").toList) ≠ (("![p](/a/)x/p.png)").toList) := by
  refine ⟨by rfl, by rfl, by decide⟩

/-- Witness for C6 (amended) at a concrete input: rewriting pic.png from
/d and re-resolving the result. -/
theorem C6_idempotent_rewrite_witness :
    resolvePath [['x']] (renderAbs (resolvePath [['d']] (['p', 'i', 'c'])))
        = resolvePath [['d']] (['p', 'i', 'c'])
      ∧ reSub (fix_link [['x']])
          (renderDoc ([MdItem.img ['a'] ['p', 'i', 'c']].map
            (substItem [['d']])))
        = renderDoc ([MdItem.img ['a'] ['p', 'i', 'c']].map
            (substItem [['d']])) := by
  constructor
  · exact C6_idempotent_rewrite.2.1 [['d']] [['x']] (['p', 'i', 'c'])
      (by decide)
  · exact C6_idempotent_rewrite.2.2 [['d']] [['x']]
      [MdItem.img ['a'] ['p', 'i', 'c']] (by decide) (by decide)


/-! ### Claim theorems about merging -/

theorem mergeDocs_render (ds : List (List Seg × List Char × List MdItem)) :
    mergeDocs (ds.map (fun d => ⟨d.1, d.2.1, .ok (renderDoc d.2.2)⟩))
      = .ok ((ds.map (fun d =>
          reSub (fix_link d.1) (renderDoc d.2.2) ++ ['\n', '\n'])).join) := by
  induction ds with
  | nil => rfl
  | cons d t ih =>
    simp only [List.map_cons, mergeDocs]
    rw [ih]
    simp [Except.map, List.append_assoc]

/-- C3 (amended): the merged artifact is the metadata header first (when
supplied), then for each document in order the document's text in which
exactly the local resource references are substituted and nothing else is
altered, followed by a blank-line separator.  No page-break marker is
written by this merge (the legacy standalone script writes one). -/
theorem C3_merge_shape (ds : List (List Seg × List Char × List MdItem))
    (metadata : List Char)
    (hwf : ∀ d ∈ ds, ∀ i ∈ d.2.2, itemWF i) :
    merge_markdown (ds.map (fun d => ⟨d.1, d.2.1, .ok (renderDoc d.2.2)⟩))
        metadata
      = .ok ((if metadata = [] then [] else metadata)
          ++ (ds.map (fun d =>
              renderDoc (d.2.2.map (substItem d.1)) ++ ['\n', '\n'])).join) := by
  unfold merge_markdown
  rw [mergeDocs_render]
  show Except.ok _ = _
  congr 2
  congr 1
  apply List.map_congr_left
  intro d hd
  rw [reSub_render d.1 d.2.2 (hwf d hd)]

/-- Witness for C3 (amended) at a concrete input. -/
theorem C3_merge_shape_witness :
    merge_markdown [⟨[['d']], (("a.md").toList),
        .ok (renderDoc [MdItem.txt (("hi ").toList),
          MdItem.img (("a").toList) (("p.png").toList)])⟩]
        (("m\n").toList)
      = .ok ((("m\n").toList)
          ++ (renderDoc [MdItem.txt (("hi ").toList),
              MdItem.img (("a").toList) (("/d/p.png").toList)]
            ++ ['\n', '\n'])) := by
  have h := C3_merge_shape [⟨[['d']], (("a.md").toList),
      [MdItem.txt (("hi ").toList),
        MdItem.img (("a").toList) (("p.png").toList)]⟩]
    (("m\n").toList) (by decide)
  exact h.trans (by rfl)

/-- Counterexample to C3 as stated: the merge of src/mdfusion/mdfusion.py
writes no page-break marker before a document, so the artifact is not
"page-break marker, then document text, then separator"; the legacy
script's merge produces exactly that claimed shape. -/
theorem C3_counterexample :
    merge_markdown [⟨[], (("a.md").toList), .ok (("hello").toList)⟩] []
        = .ok (("hello\n\n").toList)
      ∧ (("hello\n\n").toList)
          ≠ newpageMarker ++ (("hello").toList) ++ ['\n', '\n']
      ∧ merge_markdown_legacy [⟨[], (("a.md").toList),
            .ok (("hello").toList)⟩] []
          = .ok (newpageMarker ++ (("hello").toList) ++ ['\n', '\n']) := by
  refine ⟨by rfl, by decide, by rfl⟩

/-- C4: references whose target begins with a recognized URL scheme
(`http://` or `https://`, per IMAGE_RE's lookahead) appear in the merged
output byte-for-byte identical to the source; only references whose
target does not begin with a recognized scheme are rewritten. -/
theorem C4_url_passthrough :
    (∀ (parent : List Seg) (a l rest : List Char),
       (∀ c ∈ a, c ≠ ']' ∧ c ≠ '!') → (∀ c ∈ l, c ≠ ')' ∧ c ≠ '!') →
       isHttpUrl l = true →
       reSub (fix_link parent) (renderItem (.img a l) ++ rest)
         = renderItem (.img a l) ++ reSub (fix_link parent) rest)
    ∧ (∀ (parent : List Seg) (a l rest : List Char),
       (∀ c ∈ a, c ≠ ']' ∧ c ≠ '!') → l ≠ [] →
       (∀ c ∈ l, c ≠ ')' ∧ c ≠ '!') → isHttpUrl l = false →
       reSub (fix_link parent) (renderItem (.img a l) ++ rest)
         = fix_link parent a l ++ reSub (fix_link parent) rest) :=
  ⟨fun _ _ _ _ ha hl hurl => reSub_img_url ha hl hurl,
    fun _ _ _ _ ha hlne hlp hurl =>
      reSub_img_local (fun c hc => (ha c hc).1) hlne
        (fun c hc => (hlp c hc).1) hurl⟩

/-- Witness for C4: a URL image reference passes through unchanged. -/
theorem C4_url_passthrough_witness :
    reSub (fix_link [['d']])
        (renderItem (.img (("a").toList) (("http://e/p.png").toList)) ++ [])
      = renderItem (.img (("a").toList) (("http://e/p.png").toList)) := by
  have h := C4_url_passthrough.1 [['d']] (("a").toList)
    (("http://e/p.png").toList) [] (by decide) (by decide) (by decide)
  simpa using h

/-- C7: when zero matching documents are found under the root, the
operation fails with the input-not-found message and produces no output
artifact. -/
theorem C7_no_documents_error (fs : FileSys) (metadata : List Char)
    (h : ∀ p ∈ fs.files, isMdPath p = false) :
    run fs metadata = .error (("No Markdown files found").toList)
      ∧ ∀ a, run fs metadata ≠ .ok a := by
  have hfind : find_markdown_files fs.files = [] := by
    unfold find_markdown_files
    rw [List.filter_eq_nil.mpr (by intro a ha; simp [h a ha])]
    rfl
  constructor
  · unfold run
    rw [if_pos hfind]
  · intro a
    unfold run
    rw [if_pos hfind]
    simp

/-- Witness for C7: a root containing only notes.txt. -/
theorem C7_no_documents_error_witness :
    run ⟨[(("notes.txt").toList)], fun _ => [], fun _ => .error []⟩ []
      = .error (("No Markdown files found").toList) :=
  (C7_no_documents_error
    ⟨[(("notes.txt").toList)], fun _ => [], fun _ => .error []⟩ []
    (by decide)).1

theorem mergeDocs_error (pre post : List SrcDoc) (d : SrcDoc)
    (e : List Char) (hpre : ∀ x ∈ pre, (x.content).isOk = true)
    (hd : d.content = .error e) :
    mergeDocs (pre ++ d :: post) = .error e := by
  induction pre with
  | nil =>
    rw [List.nil_append]
    show mergeDocs (d :: post) = _
    simp only [mergeDocs]
    rw [hd]
  | cons x t ih =>
    have hx : (x.content).isOk = true := hpre x (by simp)
    rcases hcx : x.content with e2 | text
    · rw [hcx] at hx
      exact absurd hx (by simp [Except.isOk, Except.toBool])
    · rw [List.cons_append]
      simp only [mergeDocs]
      rw [hcx, ih (fun y hy => hpre y (by simp [hy]))]
      rfl

/-- C8 (amended): a document whose read fails aborts the merge at that
document: the reported failure is the raised exception's message, and no
artifact is produced (the merge is a pure function of the inputs, so
source documents are never mutated). -/
theorem C8_unreadable_aborts (pre post : List SrcDoc) (d : SrcDoc)
    (metadata e : List Char)
    (hpre : ∀ x ∈ pre, (x.content).isOk = true)
    (hd : d.content = .error e) :
    merge_markdown (pre ++ d :: post) metadata = .error e
      ∧ ∀ a, merge_markdown (pre ++ d :: post) metadata ≠ .ok a := by
  have h := mergeDocs_error pre post d e hpre hd
  constructor
  · unfold merge_markdown
    rw [h]
    rfl
  · intro a
    unfold merge_markdown
    rw [h]
    simp [Except.map]

/-- Counterexample to C8 as stated: for an undecodable document the
raised `UnicodeDecodeError`'s message — which is what the program prints —
contains no occurrence of the offending document's path, so the failure is
not reported with the path (a permission failure's `OSError` message does
contain it; see the witness). -/
theorem C8_counterexample :
    merge_markdown [⟨[], (("bad.md").toList), .error utf8DecodeMsg⟩] []
        = .error utf8DecodeMsg
      ∧ hasSubstr (("bad.md").toList) utf8DecodeMsg = false := by
  refine ⟨by rfl, by decide⟩

/-- Witness for C8 (amended): the second of two documents fails with a
permission error, whose message does contain the offending path. -/
theorem C8_unreadable_aborts_witness :
    merge_markdown [⟨[], (("a.md").toList), .ok (("x").toList)⟩,
        ⟨[], (("bad.md").toList),
          .error ((("Errno 13 Permission denied: bad.md").toList))⟩] []
      = .error ((("Errno 13 Permission denied: bad.md").toList))
    ∧ hasSubstr (("bad.md").toList)
        ((("Errno 13 Permission denied: bad.md").toList)) = true := by
  constructor
  · exact (C8_unreadable_aborts
      [⟨[], (("a.md").toList), .ok (("x").toList)⟩] []
      ⟨[], (("bad.md").toList),
        .error ((("Errno 13 Permission denied: bad.md").toList))⟩ []
      ((("Errno 13 Permission denied: bad.md").toList))
      (by decide) rfl).1
  · decide

/-- Counterexample to C9 as stated: the caller explicitly supplies the
empty string as title, the config also supplies a title, and the config
value — not the caller's — is used, because the merging loop treats every
falsy CLI value as "not supplied". -/
theorem C9_counterexample :
    (applyConfig ⟨none, none, false, false, some [], none, []⟩
        ⟨none, none, none, none, some ['X'], none, none⟩).title
        = some ['X']
      ∧ (⟨none, none, false, false, some [], none, []⟩ : RunParams).title
          = some []
      ∧ (applyConfig ⟨none, none, false, false, some [], none, []⟩
            ⟨none, none, none, none, some ['X'], none, none⟩).title
          ≠ (⟨none, none, false, false, some [], none, []⟩ : RunParams).title :=
  ⟨rfl, rfl, by decide⟩

/-- C9 (amended): a caller-supplied value wins over a configuration value
whenever it is not one of the falsy sentinels None, False, empty list,
empty string (for the Path-valued root_dir: whenever it is not None). -/
theorem C9_cli_precedence (p : RunParams) (c : ConfigTbl) :
    (p.root_dir ≠ none → (applyConfig p c).root_dir = p.root_dir)
    ∧ (falsyStr p.output = false → (applyConfig p c).output = p.output)
    ∧ (p.no_toc = true → (applyConfig p c).no_toc = p.no_toc)
    ∧ (p.title_page = true → (applyConfig p c).title_page = p.title_page)
    ∧ (falsyStr p.title = false → (applyConfig p c).title = p.title)
    ∧ (falsyStr p.author = false → (applyConfig p c).author = p.author)
    ∧ (p.pandoc_args ≠ [] → (applyConfig p c).pandoc_args = p.pandoc_args)
    := by
  unfold applyConfig
  refine ⟨?_, ?_, ?_, ?_, ?_, ?_, ?_⟩ <;> intro h
  · rcases hc : c.root_dir with _ | v <;> simp [hc, h]
  · rcases hc : c.output with _ | v <;> simp [hc, h]
  · rcases hc : c.no_toc with _ | v <;> simp [hc, h]
  · rcases hc : c.title_page with _ | v <;> simp [hc, h]
  · rcases hc : c.title with _ | v <;> simp [hc, h]
  · rcases hc : c.author with _ | v <;> simp [hc, h]
  · rcases hc : c.pandoc_args with _ | v <;> simp [hc, h]

/-- Witness for C9 (amended): non-falsy CLI values survive a fully
populated config. -/
theorem C9_cli_precedence_witness :
    (applyConfig ⟨some ['r'], some ['o'], true, true, some ['t'],
        some ['a'], [['x']]⟩
      ⟨some ['R'], some ['O'], some false, some false, some ['T'],
        some ['A'], some [['Y']]⟩).title = some ['t']
    ∧ (applyConfig ⟨some ['r'], some ['o'], true, true, some ['t'],
        some ['a'], [['x']]⟩
      ⟨some ['R'], some ['O'], some false, some false, some ['T'],
        some ['A'], some [['Y']]⟩).output = some ['o'] := by
  constructor
  · exact (C9_cli_precedence ⟨some ['r'], some ['o'], true, true,
      some ['t'], some ['a'], [['x']]⟩
      ⟨some ['R'], some ['O'], some false, some false, some ['T'],
        some ['A'], some [['Y']]⟩).2.2.2.2.1 (by decide)
  · exact (C9_cli_precedence ⟨some ['r'], some ['o'], true, true,
      some ['t'], some ['a'], [['x']]⟩
      ⟨some ['R'], some ['O'], some false, some false, some ['T'],
        some ['A'], some [['Y']]⟩).2.1 (by decide)


end MdFusion
